import Mathlib

/-!
Verification of the RSA signing / key-persistence module of the
Engelch/go_libs repository against its natural-language specification.

The Go source (crypt.go) is shallowly embedded in Lean:

  * byte slices become `List Nat` in which every entry is `< 256`;
  * Go `nil` slices and `nil` pointers become `Option`;
  * fallible functions return `Except Err`;
  * the standard-library primitives relied upon by crypt.go
    (crypto/sha256, the RSA-PSS scheme of crypto/rsa, encoding/pem,
    the PKCS1/PKIX marshalling of crypto/x509, encoding/base64 and the
    os file primitives used by key-pair creation) are implemented as
    executable Lean functions that follow the behaviour of those Go
    packages on the inputs the module feeds them;
  * randomness (the PSS salt, RSA key generation) and the state of the
    file system become explicit parameters.
-/

namespace GoLibs

/-- Every entry of the list is an actual byte value. -/
def Bytes (l : List Nat) : Prop := ∀ x ∈ l, x < 256

instance (l : List Nat) : Decidable (Bytes l) := by
  unfold Bytes; infer_instance

/-- Big-endian interpretation of a byte string as a natural number
(the OS2IP primitive used by crypto/rsa via big.Int SetBytes). -/
def os2ip (l : List Nat) : Nat := l.foldl (fun a b => 256 * a + b) 0

/-- Big-endian serialisation of a natural number into exactly `len` bytes
(the I2OSP primitive used by crypto/rsa via big.Int FillBytes). -/
def i2osp : Nat → Nat → List Nat
  | 0, _ => []
  | k + 1, n => i2osp k (n / 256) ++ [n % 256]

/-- Fuel-driven binary modular exponentiation helper. -/
def powModAux : Nat → Nat → Nat → Nat → Nat
  | 0, _, _, n => 1 % n
  | f + 1, b, e, n =>
    if e = 0 then 1 % n
    else
      let r := powModAux f (b * b % n) (e / 2) n
      if e % 2 = 1 then r * b % n else r

/-- Modular exponentiation, the arithmetic core of the RSA operations in
crypto/rsa (big.Int Exp). -/
def powMod (b e n : Nat) : Nat := powModAux e b e n

/-- Fuel-driven splitting of a list into chunks of `n` elements. -/
def chunksOfAux (n : Nat) : Nat → List α → List (List α)
  | 0, _ => []
  | _, [] => []
  | f + 1, l => l.take n :: chunksOfAux n f (l.drop n)

/-- Splits a list into consecutive chunks of `n` elements (the last chunk
may be shorter). -/
def chunksOf (n : Nat) (l : List α) : List (List α) := chunksOfAux n l.length l

/-! SHA-256, following FIPS 180-4 as implemented by Go crypto/sha256.
32-bit words are `Nat` values reduced modulo 2^32. -/

/-- Truncation to a 32-bit word. -/
def w32 (n : Nat) : Nat := n % 4294967296

/-- Right rotation of a 32-bit word by `r` positions. -/
def rotr32 (r x : Nat) : Nat := x / 2 ^ r + x % 2 ^ r * 2 ^ (32 - r)

/-- The SHA-256 Ch function. -/
def sha256ch (x y z : Nat) : Nat := (x &&& y) ^^^ ((4294967295 ^^^ x) &&& z)

/-- The SHA-256 Maj function. -/
def sha256maj (x y z : Nat) : Nat := (x &&& y) ^^^ (x &&& z) ^^^ (y &&& z)

/-- The SHA-256 Σ0 function. -/
def sha256S0 (x : Nat) : Nat := rotr32 2 x ^^^ rotr32 13 x ^^^ rotr32 22 x

/-- The SHA-256 Σ1 function. -/
def sha256S1 (x : Nat) : Nat := rotr32 6 x ^^^ rotr32 11 x ^^^ rotr32 25 x

/-- The SHA-256 σ0 function. -/
def sha256s0 (x : Nat) : Nat := rotr32 7 x ^^^ rotr32 18 x ^^^ x / 2 ^ 3

/-- The SHA-256 σ1 function. -/
def sha256s1 (x : Nat) : Nat := rotr32 17 x ^^^ rotr32 19 x ^^^ x / 2 ^ 10

/-- The SHA-256 round constants. -/
def sha256K : List Nat :=
  [1116352408, 1899447441, 3049323471, 3921009573, 961987163, 1508970993,
   2453635748, 2870763221, 3624381080, 310598401, 607225278, 1426881987,
   1925078388, 2162078206, 2614888103, 3248222580, 3835390401, 4022224774,
   264347078, 604807628, 770255983, 1249150122, 1555081692, 1996064986,
   2554220882, 2821834349, 2952996808, 3210313671, 3336571891, 3584528711,
   113926993, 338241895, 666307205, 773529912, 1294757372, 1396182291,
   1695183700, 1986661051, 2177026350, 2456956037, 2730485921, 2820302411,
   3259730800, 3345764771, 3516065817, 3600352804, 4094571909, 275423344,
   430227734, 506948616, 659060556, 883997877, 958139571, 1322822218,
   1537002063, 1747873779, 1955562222, 2024104815, 2227730452, 2361852424,
   2428436474, 2756734187, 3204031479, 3329325298]

/-- The SHA-256 working state: eight 32-bit words. -/
structure Sha256State where
  a : Nat
  b : Nat
  c : Nat
  d : Nat
  e : Nat
  f : Nat
  g : Nat
  h : Nat

/-- The SHA-256 initial hash value. -/
def sha256init : Sha256State :=
  ⟨1779033703, 3144134277, 1013904242, 2773480762,
   1359893119, 2600822924, 528734635, 1541459225⟩

/-- FIPS 180-4 padding: a 0x80 byte, zeros to 56 mod 64, then the bit
length in 8 big-endian bytes. -/
def sha256pad (msg : List Nat) : List Nat :=
  msg ++ [128] ++ List.replicate ((119 - msg.length % 64) % 64) 0
    ++ i2osp 8 (8 * msg.length)

/-- Groups a byte list into big-endian 32-bit words. -/
def bytesToWords : List Nat → List Nat
  | a :: b :: c :: d :: rest => (((a * 256 + b) * 256 + c) * 256 + d) :: bytesToWords rest
  | _ => []

/-- Message-schedule extension: appends `i` further words to the schedule. -/
def sha256extend (w : List Nat) : Nat → List Nat
  | 0 => w
  | i + 1 =>
    let t := w32 (sha256s1 (w.getD (w.length - 2) 0) + w.getD (w.length - 7) 0
      + sha256s0 (w.getD (w.length - 15) 0) + w.getD (w.length - 16) 0)
    sha256extend (w ++ [t]) i

/-- One SHA-256 compression round. -/
def sha256round (s : Sha256State) (kw : Nat × Nat) : Sha256State :=
  let t1 := w32 (s.h + sha256S1 s.e + sha256ch s.e s.f s.g + kw.1 + kw.2)
  let t2 := w32 (sha256S0 s.a + sha256maj s.a s.b s.c)
  ⟨w32 (t1 + t2), s.a, s.b, s.c, w32 (s.d + t1), s.e, s.f, s.g⟩

/-- Processes one 64-byte block. -/
def sha256block (s : Sha256State) (block : List Nat) : Sha256State :=
  let w := sha256extend (bytesToWords block) 48
  let t := (sha256K.zip w).foldl sha256round s
  ⟨w32 (s.a + t.a), w32 (s.b + t.b), w32 (s.c + t.c), w32 (s.d + t.d),
   w32 (s.e + t.e), w32 (s.f + t.f), w32 (s.g + t.g), w32 (s.h + t.h)⟩

/-- Serialises the final state as 32 big-endian bytes. -/
def sha256out (s : Sha256State) : List Nat :=
  i2osp 4 s.a ++ i2osp 4 s.b ++ i2osp 4 s.c ++ i2osp 4 s.d
    ++ i2osp 4 s.e ++ i2osp 4 s.f ++ i2osp 4 s.g ++ i2osp 4 s.h

/-- SHA-256 of a byte sequence. -/
def sha256 (msg : List Nat) : List Nat :=
  sha256out ((chunksOf 64 (sha256pad msg)).foldl sha256block sha256init)

/-- Embeds Sha256bytes2bytes (crypt.go): it feeds the bytes to a fresh
SHA-256 state and returns the digest, i.e. exactly SHA-256 of the input. -/
def Sha256bytes2bytes (bytes : List Nat) : List Nat := sha256 bytes

/-! The RSA-PSS scheme of Go crypto/rsa, with SHA-256 and automatic salt
length, exactly as crypt.go invokes it.  big.Int values are `Nat`;
the PSS salt randomness is an explicit random-source parameter. -/

/-- Fuel-driven bit length helper. -/
def bitLenAux : Nat → Nat → Nat
  | 0, _ => 0
  | f + 1, n => if n = 0 then 0 else bitLenAux f (n / 2) + 1

/-- Number of bits in a natural number (big.Int BitLen: 0 for 0). -/
def bitLen (n : Nat) : Nat := bitLenAux n n

/-- An RSA public key as in crypto/rsa: modulus and public exponent. -/
structure PublicKey where
  n : Nat
  e : Nat
deriving DecidableEq, Repr

/-- An RSA private key as in crypto/rsa, in the two-prime form produced
by rsa.GenerateKey: the embedded public key, the private exponent and
the two primes. -/
structure PrivateKey where
  pub : PublicKey
  d : Nat
  p : Nat
  q : Nat
deriving DecidableEq, Repr

/-- pub.Size(): the modulus size in bytes. -/
def pubSize (pub : PublicKey) : Nat := (bitLen pub.n + 7) / 8

/-- The error outcomes of the module, tagging Go's distinct error
returns (each Go error string is prefixed with the reporting function's
name by CurrentFunctionName, which carries no further information). -/
inductive Err where
  | nilKey
  | nilDigest
  | verification
  | encoding
  | messageTooLong
  | inputNotHashed
  | signing
  | generation
  | ioErr
  | alreadyExists
deriving DecidableEq, Repr

/-- Byte-wise exclusive or (the overlapping part of Go mgf1XOR). -/
def xorBytes (a b : List Nat) : List Nat := List.zipWith (fun x y => x ^^^ y) a b

/-- Clears the indicated bits of the first byte (the maskedDB[0] &=
0xff >> (8*emLen - emBits) step of PSS). -/
def maskHead (m : Nat) : List Nat → List Nat
  | [] => []
  | x :: t => (x &&& m) :: t

/-- MGF1 counter loop: `c` blocks starting at counter `ctr`. -/
def mgf1Aux (seed : List Nat) : Nat → Nat → List Nat
  | 0, _ => []
  | c + 1, ctr => sha256 (seed ++ i2osp 4 ctr) ++ mgf1Aux seed c (ctr + 1)

/-- The MGF1 mask generation function over SHA-256 (Go mgf1XOR). -/
def mgf1 (seed : List Nat) (len : Nat) : List Nat :=
  (mgf1Aux seed ((len + 31) / 32) 0).take len

/-- EMSA-PSS-ENCODE (crypto/rsa emsaPSSEncode) with SHA-256. -/
def emsaPSSEncode (mHash : List Nat) (emBits : Nat) (salt : List Nat) :
    Except Err (List Nat) :=
  let sLen := salt.length
  let emLen := (emBits + 7) / 8
  if mHash.length ≠ 32 then .error .inputNotHashed
  else if emLen < 32 + sLen + 2 then .error .messageTooLong
  else
    let psLen := emLen - sLen - 32 - 2
    let h := sha256 (List.replicate 8 0 ++ mHash ++ salt)
    let db := List.replicate psLen 0 ++ [1] ++ salt
    let dbMask := mgf1 h (emLen - 32 - 1)
    let maskedDB := maskHead (255 >>> (8 * emLen - emBits)) (xorBytes db dbMask)
    .ok (maskedDB ++ h ++ [188])

/-- EMSA-PSS-VERIFY (crypto/rsa emsaPSSVerify) with SHA-256 and
automatic salt-length discovery via the 0x01 delimiter. -/
def emsaPSSVerify (mHash em : List Nat) (emBits : Nat) : Bool :=
  let emLen := (emBits + 7) / 8
  if mHash.length ≠ 32 then false
  else if em.length ≠ emLen then false
  else if emLen < 32 + 2 then false
  else if em.getD (emLen - 1) 0 ≠ 188 then false
  else
    let maskedDB := em.take (emLen - 32 - 1)
    let h := (em.drop (emLen - 32 - 1)).take 32
    let bitMask := 255 >>> (8 * emLen - emBits)
    if em.headD 0 &&& (255 ^^^ bitMask) ≠ 0 then false
    else
      let dbMask := mgf1 h (emLen - 32 - 1)
      let db := maskHead bitMask (xorBytes maskedDB dbMask)
      match db.findIdx? (fun x => x == 1) with
      | none => false
      | some psIdx =>
        let sLen := db.length - psIdx - 1
        let psLen := emLen - 32 - sLen - 2
        if db.take psLen ≠ List.replicate psLen 0 then false
        else if db.getD psLen 0 ≠ 1 then false
        else
          let salt := db.drop (db.length - sLen)
          sha256 (List.replicate 8 0 ++ mHash ++ salt) == h

/-- A random source as io.ReadFull sees it: asked for k bytes it yields
exactly k bytes. -/
def RandOk (rnd : Nat → List Nat) : Prop :=
  ∀ k, Bytes (rnd k) ∧ (rnd k).length = k

/-- crypto/rsa SignPSS with SaltLengthAuto and SHA-256: the automatic
salt length (emLen - 2 - hLen), EMSA-PSS encoding, the RSA private-key
operation m^d mod n with the decryptAndCheck sanity re-encryption, and
serialisation to the modulus size.  `rnd` supplies the salt bytes. -/
def signPSS (key : PrivateKey) (digest : List Nat) (rnd : Nat → List Nat) :
    Except Err (List Nat) :=
  let n := key.pub.n
  let emBits := bitLen n - 1
  let emLen := (emBits + 7) / 8
  if emLen < 2 + 32 then .error .messageTooLong
  else
    let salt := rnd (emLen - 2 - 32)
    match emsaPSSEncode digest emBits salt with
    | .error e => .error e
    | .ok em =>
      let m := os2ip em
      let c := powMod m key.d n
      if powMod c key.pub.e n ≠ m then .error .signing
      else .ok (i2osp (pubSize key.pub) c)

/-- crypto/rsa VerifyPSS with SaltLengthAuto and SHA-256: checks the
signature length, applies the RSA public-key operation and delegates to
EMSA-PSS-VERIFY.  (Values ≥ n, or whose encoding exceeds emLen bytes,
are rejected as in Go.) -/
def verifyPSS (pub : PublicKey) (digest sig : List Nat) : Bool :=
  if sig.length ≠ pubSize pub then false
  else
    let m := os2ip sig
    if pub.n < m then false
    else
      let emBits := bitLen pub.n - 1
      let emLen := (emBits + 7) / 8
      let em := powMod m pub.e pub.n
      if 256 ^ emLen ≤ em then false
      else emsaPSSVerify digest (i2osp emLen em) emBits

/-! The signing / verification functions of crypt.go. -/

/-- Embeds SignByteArray (crypt.go): a nil private key is the deliberate
no-signing no-op; otherwise RSA-PSS (automatic salt length, SHA-256)
over the given digest, errors being wrapped and propagated. -/
def SignByteArray (key : Option PrivateKey) (digest : List Nat)
    (rnd : Nat → List Nat) : Except Err (Option (List Nat)) :=
  match key with
  | none => .ok none
  | some k =>
    match signPSS k digest rnd with
    | .error _ => .error .signing
    | .ok sig => .ok (some sig)

/-- Embeds VerifyByteArray (crypt.go): nil-key and nil-signature guards,
then PSS verification of the signature against the freshly recomputed
SHA-256 digest of the message.  (The signature parameter is named
digest in the Go source.) -/
def VerifyByteArray (key : Option PublicKey) (digest : Option (List Nat))
    (msg : List Nat) : Except Err Unit :=
  match key with
  | none => .error .nilKey
  | some k =>
    match digest with
    | none => .error .nilDigest
    | some sig =>
      if verifyPSS k (Sha256bytes2bytes msg) sig then .ok ()
      else .error .verification

/-! The key-pair creation functions of crypt.go.  File-system outcomes
(path existence, creation success) and the fallible crypto primitives
are an explicit oracle; the calls record a trace of file create / close
events, deferred closes firing in LIFO order when the function returns
after registering them. -/

/-- Outcome oracle for CreateRSAKeyPair2File: which paths os.Stat finds,
which os.Create calls succeed, and whether key generation and the two
key writes succeed. -/
structure World where
  pathExists : String → Bool
  createOk : String → Bool
  genOk : Bool
  writePrivOk : Bool
  writePubOk : Bool

/-- File handle events observable from CreateRSAKeyPair2File. -/
inductive FsEvent where
  | create (path : String)
  | close (path : String)
deriving DecidableEq, Repr

/-- Embeds createRSAKeyPair2 (crypt.go): generate a key pair, write the
private key, write the public key, propagating the first failure. -/
def createRSAKeyPair2 (w : World) : Except Err Unit :=
  if ¬ w.genOk then .error .generation
  else if ¬ w.writePrivOk then .error .ioErr
  else if ¬ w.writePubOk then .error .ioErr
  else .ok ()

/-- Embeds CreateRSAKeyPair2File (crypt.go): two os.Stat existence
checks, two os.Create calls, then (with both Close calls deferred) the
delegation to createRSAKeyPair2.  Returns the outcome together with the
ordered create/close event trace of the call. -/
def CreateRSAKeyPair2File (w : World) (outfileName : String) :
    Except Err Unit × List FsEvent :=
  if w.pathExists outfileName then (.error .alreadyExists, [])
  else if w.pathExists (outfileName ++ ".pub") then (.error .alreadyExists, [])
  else if ¬ w.createOk outfileName then (.error .ioErr, [])
  else if ¬ w.createOk (outfileName ++ ".pub") then
    (.error .ioErr, [.create outfileName])
  else
    (createRSAKeyPair2 w,
     [.create outfileName, .create (outfileName ++ ".pub"),
      .close (outfileName ++ ".pub"), .close outfileName])

/-- Embeds CreateRSAKeyPair (crypt.go): generates a private key (the
oracle gives rsa.GenerateKey's outcome) and returns it paired with its
embedded public key. -/
def CreateRSAKeyPair (gen : Except Err PrivateKey) :
    Except Err (PrivateKey × PublicKey) :=
  match gen with
  | .error _ => .error .generation
  | .ok k => .ok (k, k.pub)

/-! Standard base64 (RFC 4648 with padding), as Go encoding/base64
StdEncoding uses it.  The decoder accepts exactly the well-formed
padded four-character groups; Go's additional tolerance for embedded
newlines is not exercised by this module. -/

/-- The standard base64 alphabet. -/
def b64chars : List Char :=
  ['A', 'B', 'C', 'D', 'E', 'F', 'G', 'H', 'I', 'J', 'K', 'L', 'M',
   'N', 'O', 'P', 'Q', 'R', 'S', 'T', 'U', 'V', 'W', 'X', 'Y', 'Z',
   'a', 'b', 'c', 'd', 'e', 'f', 'g', 'h', 'i', 'j', 'k', 'l', 'm',
   'n', 'o', 'p', 'q', 'r', 's', 't', 'u', 'v', 'w', 'x', 'y', 'z',
   '0', '1', '2', '3', '4', '5', '6', '7', '8', '9', '+', '/']

/-- Character of a 6-bit group. -/
def b64enc (i : Nat) : Char := b64chars.getD i '@'

/-- Index of an alphabet character, none for anything else. -/
def b64dec (c : Char) : Option Nat := b64chars.findIdx? (fun x => x == c)

/-- base64 encoding (EncodeToString). -/
def base64encode : List Nat → List Char
  | [] => []
  | [a] => [b64enc (a / 4), b64enc (a % 4 * 16), '=', '=']
  | [a, b] => [b64enc (a / 4), b64enc (a % 4 * 16 + b / 16), b64enc (b % 16 * 4), '=']
  | a :: b :: c :: rest =>
    b64enc (a / 4) :: b64enc (a % 4 * 16 + b / 16) :: b64enc (b % 16 * 4 + c / 64)
      :: b64enc (c % 64) :: base64encode rest

/-- base64 decoding of the padded four-character quanta (the core loop
of Go DecodeString, after its newline skipping): none models the
CorruptInputError return. -/
def base64decodeQuanta : List Char → Option (List Nat)
  | [] => some []
  | c1 :: c2 :: c3 :: c4 :: rest =>
    match b64dec c1, b64dec c2 with
    | some a, some b =>
      if c3 = '=' then
        if c4 = '=' ∧ rest = [] then some [a * 4 + b / 16] else none
      else
        match b64dec c3 with
        | some c =>
          if c4 = '=' then
            if rest = [] then some [a * 4 + b / 16, b % 16 * 16 + c / 4] else none
          else
            match b64dec c4 with
            | some d =>
              match base64decodeQuanta rest with
              | some t => some ((a * 4 + b / 16) :: (b % 16 * 16 + c / 4) :: (c % 4 * 64 + d) :: t)
              | none => none
            | none => none
        | none => none
    | _, _ => none
  | _ => none

/-- base64 decoding (Go StdEncoding.DecodeString): carriage returns and
newlines are skipped wherever they appear, then the padded quanta are
decoded; none models the CorruptInputError return. -/
def base64decode (s : List Char) : Option (List Nat) :=
  base64decodeQuanta (s.filter (fun c => !(c == '\r' || c == '\n')))

/-! PEM armoring (Go encoding/pem).  A PEM file is modelled as its list
of text lines. -/

/-- A PEM block: type label and DER payload (headers are not used by
crypt.go). -/
structure PemBlock where
  type : List Char
  bytes : List Nat
deriving DecidableEq

/-- The opening marker of a BEGIN line. -/
def pemBegin : List Char := "-----BEGIN ".toList

/-- The opening marker of an END line. -/
def pemEnd : List Char := "-----END ".toList

/-- The closing dashes of both marker lines. -/
def pemDashes : List Char := "-----".toList

/-- encoding/pem Encode: BEGIN line, base64 body wrapped at 64
characters per line, END line. -/
def pemEncode (b : PemBlock) : List (List Char) :=
  (pemBegin ++ b.type ++ pemDashes)
    :: chunksOf 64 (base64encode b.bytes)
    ++ [pemEnd ++ b.type ++ pemDashes]

/-- Collects the body lines strictly before the END line; none if the
END line never comes. -/
def pemBody (endLine : List Char) : List (List Char) → Option (List (List Char))
  | [] => none
  | l :: rest =>
    if l = endLine then some []
    else
      match pemBody endLine rest with
      | some body => some (l :: body)
      | none => none

/-- Recognises a BEGIN marker line and extracts the block type between
the markers. -/
def parseBeginLine (line : List Char) : Option (List Char) :=
  if line.take 11 = pemBegin ∧ line.drop (line.length - 5) = pemDashes
      ∧ 16 ≤ line.length
  then some ((line.drop 11).take (line.length - 16))
  else none

/-- encoding/pem Decode, restricted to input beginning directly with the
BEGIN line, as pemEncode produces it (Go additionally skips leading
text, which crypt.go never relies on): extracts the type from the BEGIN
line, collects the body up to the matching END line and base64-decodes
it.  none models Go's nil block return. -/
def pemDecode (lines : List (List Char)) : Option PemBlock :=
  match lines with
  | [] => none
  | first :: rest =>
    match parseBeginLine first with
    | none => none
    | some t =>
      match pemBody (pemEnd ++ t ++ pemDashes) rest with
      | none => none
      | some body =>
        match base64decode body.flatten with
        | none => none
        | some payload => some ⟨t, payload⟩

/-! DER encoding and decoding of the ASN.1 shapes used by crypto/x509
for RSA keys. -/

/-- Fuel-driven helper for the minimal big-endian byte string. -/
def base256Aux : Nat → Nat → List Nat
  | 0, _ => []
  | f + 1, n => if n = 0 then [] else base256Aux f (n / 256) ++ [n % 256]

/-- Minimal big-endian byte representation (empty for zero). -/
def base256 (n : Nat) : List Nat := base256Aux n n

/-- DER length octets: short form below 128, long form above. -/
def derLen (m : Nat) : List Nat :=
  if m < 128 then [m] else (128 + (base256 m).length) :: base256 m

/-- DER INTEGER of a non-negative integer, as encoding/asn1 marshals a
big.Int: minimal big-endian content with a leading zero octet when the
top bit is set. -/
def derInt (n : Nat) : List Nat :=
  let c0 := base256 n
  let c := if c0 = [] then [0] else if 128 ≤ c0.headD 0 then 0 :: c0 else c0
  2 :: (derLen c.length ++ c)

/-- DER SEQUENCE with the given contents. -/
def derSeq (contents : List Nat) : List Nat :=
  48 :: (derLen contents.length ++ contents)

/-- Reads DER length octets (encoding/asn1 parseTagAndLength: rejects
indefinite and non-minimal long forms); returns the length and the
remaining input. -/
def parseDerLen : List Nat → Option (Nat × List Nat)
  | [] => none
  | b :: rest =>
    if b < 128 then some (b, rest)
    else
      let k := b - 128
      if k = 0 then none
      else if rest.length < k then none
      else if rest.headD 0 = 0 then none
      else if os2ip (rest.take k) < 128 then none
      else some (os2ip (rest.take k), rest.drop k)

/-- Reads a DER INTEGER, non-negative and minimally encoded (negative
values never occur in the keys crypt.go handles: encoding/asn1 would
accept them, and crypto/x509 then rejects them as zero-or-negative key
components, an error either way). -/
def parseDerInt : List Nat → Option (Nat × List Nat)
  | [] => none
  | t :: rest =>
    if t ≠ 2 then none
    else
      match parseDerLen rest with
      | none => none
      | some (len, rest2) =>
        if len = 0 then none
        else if rest2.length < len then none
        else
          let c := rest2.take len
          if 128 ≤ c.headD 0 then none
          else if 1 < len ∧ c.headD 0 = 0 ∧ c.getD 1 0 < 128 then none
          else some (os2ip c, rest2.drop len)

/-- Reads a DER SEQUENCE header: content length and remaining input. -/
def parseDerSeqHeader (l : List Nat) : Option (Nat × List Nat) :=
  match l with
  | [] => none
  | t :: rest => if t ≠ 48 then none else parseDerLen rest

/-- crypto/x509 MarshalPKCS1PublicKey: the RSAPublicKey SEQUENCE. -/
def marshalPKCS1PublicKey (pub : PublicKey) : List Nat :=
  derSeq (derInt pub.n ++ derInt pub.e)

/-- The rsaEncryption AlgorithmIdentifier: OID 1.2.840.113549.1.1.1 with
NULL parameters. -/
def rsaAlgoId : List Nat :=
  derSeq ([6, 9, 42, 134, 72, 134, 247, 13, 1, 1, 1] ++ [5, 0])

/-- crypto/x509 MarshalPKIXPublicKey for an RSA key: a
SubjectPublicKeyInfo SEQUENCE wrapping the PKCS1 encoding in a
BIT STRING (zero unused bits). -/
def marshalPKIXPublicKey (pub : PublicKey) : List Nat :=
  let inner := marshalPKCS1PublicKey pub
  derSeq (rsaAlgoId ++ (3 :: (derLen (inner.length + 1) ++ 0 :: inner)))

/-- crypto/x509 ParsePKCS1PublicKey: parses the two-integer RSAPublicKey
SEQUENCE; in particular it fails on a PKIX SubjectPublicKeyInfo
structure, whose first sequence element is not an INTEGER. -/
def parsePKCS1PublicKey (der : List Nat) : Option PublicKey :=
  match parseDerSeqHeader der with
  | none => none
  | some (len, rest) =>
    if rest.length ≠ len then none
    else match parseDerInt rest with
    | none => none
    | some (n, r1) =>
      match parseDerInt r1 with
      | none => none
      | some (e, r2) =>
        if r2 ≠ [] then none
        else if n = 0 ∨ e = 0 then none
        else some ⟨n, e⟩

/-! The key encoding / decoding functions of crypt.go.  The PEM file a
function writes or reads is modelled as its list of text lines; the
write functions return the content written (file handles and write
errors are outside the byte-level contract), the parse functions return
none for every error return of the Go code. -/

/-- Embeds ParsePublicKey (crypt.go): first PEM block, which must carry
the PUBLIC KEY label, then PKCS1 public-key parsing. -/
def ParsePublicKey (file : List (List Char)) : Option PublicKey :=
  match pemDecode file with
  | none => none
  | some block =>
    if block.type = "PUBLIC KEY".toList then parsePKCS1PublicKey block.bytes
    else none

/-- Embeds WritePublicKey (crypt.go): the PEM serialisation it writes, a
block labeled PUBLIC KEY holding the PKIX DER of the key. -/
def WritePublicKey (pub : PublicKey) : List (List Char) :=
  pemEncode ⟨"PUBLIC KEY".toList, marshalPKIXPublicKey pub⟩

/-- Embeds VerifyBase64String (crypt.go): base64-decode the signature
and delegate to VerifyByteArray (the decoded byte slice is never a nil
slice, so the nil-signature guard cannot fire through this path). -/
def VerifyBase64String (key : Option PublicKey) (b64 : List Char)
    (msg : List Nat) : Except Err Unit :=
  match base64decode b64 with
  | none => .error .encoding
  | some sig => VerifyByteArray key (some sig) msg

/-- What rsa.GenerateKey establishes for the keys this module creates:
two distinct primes whose product is the modulus, d inverse to e modulo
p-1 and q-1, and a modulus of at least 266 bits (GenerateKey is called
with bitSize 4096), which is what makes the automatic PSS salt length
non-negative. -/
def GeneratedKey (k : PrivateKey) : Prop :=
  k.p.Prime ∧ k.q.Prime ∧ k.p ≠ k.q ∧ k.pub.n = k.p * k.q
    ∧ k.pub.e * k.d % (k.p - 1) = 1 ∧ k.pub.e * k.d % (k.q - 1) = 1
    ∧ 266 ≤ bitLen k.pub.n

/-- The witness key: p = 53*2^133 + 1 and q = 67*2^134 + 1 (both prime,
certified below by the Lucas test), e = 65537 and d its inverse modulo
(p-1)(q-1).  The modulus has 279 bits, enough for the automatic PSS
salt length to be non-negative. -/
def wKeyP : Nat := 577118894297911634033883334204278886629377

def wKeyQ : Nat := 1459130789356984131330950316667422090723329

def wKeyN : Nat := 842091947789741690775757962784462358091699629691352043563390592736830695524670636033

def wKeyD : Nat := 29642890635075363239386508691941264630934378260676090951008001598679156103594311681

def wKey : PrivateKey := ⟨⟨wKeyN, 65537⟩, wKeyD, wKeyP, wKeyQ⟩

def wRnd (k : Nat) : List Nat := (List.range k).map (fun i => (i * 7 + 3) % 256)

instance {ε α : Type} [DecidableEq ε] [DecidableEq α] : DecidableEq (Except ε α) :=
  fun a b =>
  match a, b with
  | .ok x, .ok y =>
    match decEq x y with
    | .isTrue h => .isTrue (by rw [h])
    | .isFalse h => .isFalse (fun hc => h (Except.ok.inj hc))
  | .error x, .error y =>
    match decEq x y with
    | .isTrue h => .isTrue (by rw [h])
    | .isFalse h => .isFalse (fun hc => h (Except.error.inj hc))
  | .ok _, .error _ => .isFalse (fun hc => Except.noConfusion hc)
  | .error _, .ok _ => .isFalse (fun hc => Except.noConfusion hc)

/-- A small test key (p = 61, q = 53, e = 17, d = 413) used to witness
the theorems at concrete inputs. -/
def tinyKey : PrivateKey := ⟨⟨3233, 17⟩, 413, 61, 53⟩

/-- An oracle under which both existence checks miss, creating the
private key file succeeds and creating the public key file fails. -/
def secondCreateFails : World :=
  ⟨fun _ => false, fun s => s == "key", true, true, true⟩

/-- The content octets of a DER INTEGER. -/
def derIntContents (n : Nat) : List Nat :=
  if base256 n = [] then [0]
  else if 128 ≤ (base256 n).headD 0 then 0 :: base256 n
  else base256 n

theorem i2osp_length (k n : Nat) : (i2osp k n).length = k := by
  induction k generalizing n with
  | zero => rfl
  | succ k ih => simp [i2osp, ih]

theorem bytes_i2osp (k n : Nat) : Bytes (i2osp k n) := by
  induction k generalizing n with
  | zero => intro x hx; simp [i2osp] at hx
  | succ k ih =>
    intro x hx
    simp only [i2osp, List.mem_append, List.mem_singleton] at hx
    rcases hx with h | h
    · exact ih _ x h
    · subst h; exact Nat.mod_lt _ (by norm_num)

theorem os2ip_foldl_init (l : List Nat) :
    ∀ init : Nat, List.foldl (fun a b => 256 * a + b) init l
      = init * 256 ^ l.length + os2ip l := by
  induction l with
  | nil => intro init; simp [os2ip]
  | cons x t ih =>
    intro init
    have hx : os2ip (x :: t) = x * 256 ^ t.length + os2ip t := by
      show List.foldl (fun a b => 256 * a + b) (256 * 0 + x) t = _
      rw [ih]
      simp
    simp only [List.foldl_cons, List.length_cons]
    rw [ih, hx]
    ring

theorem os2ip_append (a b : List Nat) :
    os2ip (a ++ b) = os2ip a * 256 ^ b.length + os2ip b := by
  show List.foldl _ 0 (a ++ b) = _
  rw [List.foldl_append]
  exact os2ip_foldl_init b (os2ip a)

theorem os2ip_snoc (a : List Nat) (x : Nat) :
    os2ip (a ++ [x]) = os2ip a * 256 + x := by
  rw [os2ip_append]
  simp [os2ip]

theorem os2ip_i2osp (k n : Nat) : os2ip (i2osp k n) = n % 256 ^ k := by
  induction k generalizing n with
  | zero => simp [i2osp, os2ip, Nat.mod_one]
  | succ k ih =>
    show os2ip (i2osp k (n / 256) ++ [n % 256]) = _
    rw [os2ip_snoc, ih]
    have h1 : n / 256 % 256 ^ k = n % 256 ^ (k + 1) / 256 := by
      rw [pow_succ', Nat.mod_mul_right_div_self]
    have h2 : n % 256 = n % 256 ^ (k + 1) % 256 :=
      (Nat.mod_mod_of_dvd n ⟨256 ^ k, by ring⟩).symm
    rw [h1, h2]
    omega

theorem os2ip_lt (l : List Nat) (hl : Bytes l) : os2ip l < 256 ^ l.length := by
  induction l using List.reverseRecOn with
  | nil => simp [os2ip]
  | append_singleton a x ih =>
    rw [os2ip_snoc]
    have hx : x < 256 := hl x (by simp)
    have ha : os2ip a < 256 ^ a.length := ih (fun y hy => hl y (by simp [hy]))
    simp only [List.length_append, List.length_cons, List.length_nil]
    calc os2ip a * 256 + x < (os2ip a + 1) * 256 := by omega
      _ ≤ 256 ^ a.length * 256 := Nat.mul_le_mul (Nat.succ_le_of_lt ha) (le_refl 256)
      _ = 256 ^ (a.length + 1) := by ring

theorem i2osp_os2ip (l : List Nat) (hl : Bytes l) :
    i2osp l.length (os2ip l) = l := by
  induction l using List.reverseRecOn with
  | nil => rfl
  | append_singleton a x ih =>
    have hx : x < 256 := hl x (by simp)
    have ha : Bytes a := fun y hy => hl y (by simp [hy])
    simp only [List.length_append, List.length_cons, List.length_nil]
    show i2osp (a.length + 1) (os2ip (a ++ [x])) = a ++ [x]
    simp only [i2osp, os2ip_snoc]
    have hdiv : (os2ip a * 256 + x) / 256 = os2ip a := by omega
    have hmod : (os2ip a * 256 + x) % 256 = x := by omega
    rw [hdiv, hmod, ih ha]

theorem powModAux_eq (f : Nat) : ∀ e, e ≤ f → ∀ b n, powModAux f b e n = b ^ e % n := by
  induction f with
  | zero =>
    intro e he b n
    have h0 : e = 0 := Nat.le_zero.mp he
    subst h0
    simp [powModAux]
  | succ f ih =>
    intro e he b n
    by_cases h0 : e = 0
    · subst h0; simp [powModAux]
    · have hdiv : e / 2 ≤ f := by
        have := Nat.div_lt_self (Nat.pos_of_ne_zero h0) (by norm_num : 1 < 2)
        omega
      have hr : powModAux f (b * b % n) (e / 2) n = (b * b % n) ^ (e / 2) % n :=
        ih (e / 2) hdiv (b * b % n) n
      have hpow : (b * b % n) ^ (e / 2) % n = (b * b) ^ (e / 2) % n :=
        (Nat.pow_mod (b * b) (e / 2) n).symm
      have hsplit : b ^ e = (b * b) ^ (e / 2) * b ^ (e % 2) := by
        rw [← pow_two, ← pow_mul, ← pow_add]
        congr 1
        omega
      simp only [powModAux, h0, if_false]
      by_cases h1 : e % 2 = 1
      · simp only [h1, if_true, hr]
        rw [hpow, Nat.mod_mul_mod, hsplit, h1, pow_one]
      · have h2 : e % 2 = 0 := by omega
        simp only [h1, if_false, hr]
        rw [hpow, hsplit, h2, pow_zero, mul_one]

theorem powMod_eq (b e n : Nat) : powMod b e n = b ^ e % n :=
  powModAux_eq e e (le_refl e) b n

theorem chunksOfAux_join (n : Nat) (hn : 0 < n) (f : Nat) :
    ∀ l : List α, l.length ≤ f → (chunksOfAux n f l).flatten = l := by
  induction f with
  | zero =>
    intro l hl
    have : l = [] := List.eq_nil_of_length_eq_zero (Nat.le_zero.mp hl)
    subst this; rfl
  | succ f ih =>
    intro l hl
    cases l with
    | nil => rfl
    | cons a t =>
      show ((a :: t).take n :: chunksOfAux n f ((a :: t).drop n)).flatten = a :: t
      have hlen : ((a :: t).drop n).length ≤ f := by
        simp only [List.length_drop, List.length_cons] at *
        omega
      rw [List.flatten_cons, ih _ hlen, List.take_append_drop]

theorem chunksOf_join (n : Nat) (hn : 0 < n) (l : List α) :
    (chunksOf n l).flatten = l :=
  chunksOfAux_join n hn l.length l (le_refl _)

theorem sha256_length (msg : List Nat) : (sha256 msg).length = 32 := by
  simp [sha256, sha256out, i2osp_length]

theorem bytes_sha256 (msg : List Nat) : Bytes (sha256 msg) := by
  intro x hx
  simp only [sha256, sha256out, List.mem_append] at hx
  rcases hx with ((((((h | h) | h) | h) | h) | h) | h) | h <;>
    exact bytes_i2osp 4 _ x h

/-- VerifyByteArray can fail for a present signature only with the
nil-key or mismatch errors, never with the base64 encoding error. -/
theorem verifyByteArray_ne_encoding (key : Option PublicKey)
    (sig : List Nat) (M : List Nat) :
    VerifyByteArray key (some sig) M ≠ .error .encoding := by
  cases key with
  | none => simp [VerifyByteArray]
  | some k =>
    simp only [VerifyByteArray]
    split <;> simp

/-- C9: Sha256bytes2bytes is deterministic — equal inputs give equal
digests — and every digest is exactly 32 bytes long. -/
theorem sha256bytes2bytes_deterministic_len32 (B C : List Nat) (h : B = C) :
    Sha256bytes2bytes B = Sha256bytes2bytes C
      ∧ (Sha256bytes2bytes B).length = 32 :=
  ⟨by rw [h], sha256_length B⟩

theorem sha256bytes2bytes_deterministic_len32_witness :
    [104, 105] = [104, 105]
      ∧ Sha256bytes2bytes [104, 105] = Sha256bytes2bytes [104, 105]
      ∧ (Sha256bytes2bytes [104, 105]).length = 32 :=
  ⟨rfl, sha256bytes2bytes_deterministic_len32 [104, 105] [104, 105] rfl⟩

/-- C5: signing with a nil private key is the deliberate no-op — an
absent signature and no error. -/
theorem signByteArray_nil_key_noop (digest : List Nat) (rnd : Nat → List Nat) :
    SignByteArray none digest rnd = .ok none := rfl

/-- C6: VerifyByteArray fails with the nil-key error when the key is
nil, with the nil-digest error when the signature is nil, and otherwise
its outcome is exactly the PSS check of the signature against the
SHA-256 digest it recomputes from the message: ok on success, the
mismatch (verification) error on failure. -/
theorem verifyByteArray_error_contract (key : Option PublicKey)
    (s : Option (List Nat)) (M : List Nat) :
    (key = none → VerifyByteArray key s M = .error .nilKey)
    ∧ (∀ k, key = some k → s = none → VerifyByteArray key s M = .error .nilDigest)
    ∧ (∀ k sig, key = some k → s = some sig →
        VerifyByteArray key s M =
          (if verifyPSS k (Sha256bytes2bytes M) sig then .ok () else .error .verification)) := by
  refine ⟨fun h => ?_, fun k hk hs => ?_, fun k sig hk hs => ?_⟩
  · subst h; rfl
  · subst hk; subst hs; rfl
  · subst hk; subst hs; rfl

theorem verifyByteArray_error_contract_witness :
    VerifyByteArray none (some [1, 2]) [] = .error .nilKey
    ∧ VerifyByteArray (some ⟨35, 3⟩) none [] = .error .nilDigest
    ∧ VerifyByteArray (some ⟨35, 3⟩) (some [1, 2]) [] = .error .verification := by
  refine ⟨(verifyByteArray_error_contract none (some [1, 2]) []).1 rfl,
    (verifyByteArray_error_contract (some ⟨35, 3⟩) none []).2.1 ⟨35, 3⟩ rfl rfl, ?_⟩
  have h := (verifyByteArray_error_contract (some ⟨35, 3⟩) (some [1, 2]) []).2.2
    ⟨35, 3⟩ [1, 2] rfl rfl
  rw [h]
  decide

/-- C7: VerifyBase64String fails with the encoding error exactly when
the signature string is not valid standard base64, and otherwise
returns what VerifyByteArray yields on the decoded bytes. -/
theorem verifyBase64String_contract (key : Option PublicKey) (b64 : List Char)
    (M : List Nat) :
    (VerifyBase64String key b64 M = .error .encoding ↔ base64decode b64 = none)
    ∧ (∀ sig, base64decode b64 = some sig →
        VerifyBase64String key b64 M = VerifyByteArray key (some sig) M) := by
  rcases hdec : base64decode b64 with _ | sig
  · exact ⟨by simp [VerifyBase64String, hdec], fun sig h => by cases h⟩
  · have hV : VerifyBase64String key b64 M = VerifyByteArray key (some sig) M := by
      simp [VerifyBase64String, hdec]
    constructor
    · rw [hV]
      exact ⟨fun h => absurd h (verifyByteArray_ne_encoding key sig M), fun h => by cases h⟩
    · intro sig2 h
      cases h
      exact hV

theorem verifyBase64String_contract_witness :
    base64decode ['Q', 'U', 'J', '\n', 'D'] = some [65, 66, 67]
    ∧ VerifyBase64String none ['Q', 'U', 'J', '\n', 'D'] []
        = VerifyByteArray none (some [65, 66, 67]) [] :=
  ⟨by decide,
   (verifyBase64String_contract none ['Q', 'U', 'J', '\n', 'D'] []).2 [65, 66, 67]
     (by decide)⟩

/-- C4: when the private key path or the public key path already
exists, CreateRSAKeyPair2File fails with the already-exists error and
performs no file creation at all, so no existing key file is touched. -/
theorem createRSAKeyPair2File_no_clobber (w : World) (P : String)
    (h : w.pathExists P = true ∨ w.pathExists (P ++ ".pub") = true) :
    (CreateRSAKeyPair2File w P).1 = .error .alreadyExists
    ∧ (CreateRSAKeyPair2File w P).2 = [] := by
  unfold CreateRSAKeyPair2File
  rcases h with h | h
  · simp [h]
  · by_cases h1 : w.pathExists P <;> simp [h, h1]

theorem createRSAKeyPair2File_no_clobber_witness :
    ((⟨fun _ => true, fun _ => true, true, true, true⟩ : World).pathExists "key" = true
        ∨ (⟨fun _ => true, fun _ => true, true, true, true⟩ : World).pathExists ("key" ++ ".pub") = true)
    ∧ (CreateRSAKeyPair2File ⟨fun _ => true, fun _ => true, true, true, true⟩ "key").1
        = .error .alreadyExists
    ∧ (CreateRSAKeyPair2File ⟨fun _ => true, fun _ => true, true, true, true⟩ "key").2 = [] :=
  ⟨Or.inl rfl,
   createRSAKeyPair2File_no_clobber ⟨fun _ => true, fun _ => true, true, true, true⟩
     "key" (Or.inl rfl)⟩

/-- C2 fails on the code: when creating the public key file fails after
the private key file was already created, the function returns before
either deferred Close is registered, so the opened private key file
handle is never closed — the full call evaluates to an I/O error with a
trace holding one create event and no close event at all. -/
theorem createRSAKeyPair2File_leaks_handle :
    CreateRSAKeyPair2File secondCreateFails "key"
      = (.error .ioErr, [.create "key"]) := by decide

/-- C10: whenever CreateRSAKeyPair succeeds, the returned public key is
exactly the public component embedded in the returned private key. -/
theorem createRSAKeyPair_pair_consistent (gen : Except Err PrivateKey)
    (priv : PrivateKey) (pub : PublicKey)
    (h : CreateRSAKeyPair gen = .ok (priv, pub)) : pub = priv.pub := by
  cases gen with
  | error e => cases h
  | ok k =>
    have h2 : (k, k.pub) = (priv, pub) := Except.ok.inj h
    have hp : k = priv := congrArg Prod.fst h2
    have hq : k.pub = pub := congrArg Prod.snd h2
    rw [← hp, ← hq]

theorem createRSAKeyPair_pair_consistent_witness :
    CreateRSAKeyPair (.ok tinyKey) = .ok (tinyKey, tinyKey.pub)
    ∧ tinyKey.pub = tinyKey.pub :=
  ⟨rfl, createRSAKeyPair_pair_consistent (.ok tinyKey) tinyKey tinyKey.pub rfl⟩

/-! Round-trip of the base64 and PEM layers. -/

theorem b64dec_enc (i : Nat) (h : i < 64) : b64dec (b64enc i) = some i := by
  revert h
  revert i
  decide

theorem b64enc_ne_pad (i : Nat) (h : i < 64) : b64enc i ≠ '=' := by
  revert h
  revert i
  decide

theorem b64enc_mem (i : Nat) (h : i < 64) : b64enc i ∈ b64chars := by
  revert h
  revert i
  decide

theorem base64decodeQuanta_encode (l : List Nat) (hl : Bytes l) :
    base64decodeQuanta (base64encode l) = some l := by
  induction l using base64encode.induct with
  | case1 => rfl
  | case2 a =>
    have ha : a < 256 := hl a (by simp)
    have h1 := b64dec_enc (a / 4) (by omega)
    have h2 := b64dec_enc (a % 4 * 16) (by omega)
    simp only [base64encode, base64decodeQuanta, h1, h2]
    norm_num
    omega
  | case3 a b =>
    have ha : a < 256 := hl a (by simp)
    have hb : b < 256 := hl b (by simp)
    have h1 := b64dec_enc (a / 4) (by omega)
    have h2 := b64dec_enc (a % 4 * 16 + b / 16) (by omega)
    have h3 := b64dec_enc (b % 16 * 4) (by omega)
    have hne := b64enc_ne_pad (b % 16 * 4) (by omega)
    simp only [base64encode, base64decodeQuanta, h1, h2, h3, if_neg hne]
    norm_num
    constructor <;> omega
  | case4 a b c rest ih =>
    have ha : a < 256 := hl a (by simp)
    have hb : b < 256 := hl b (by simp)
    have hc : c < 256 := hl c (by simp)
    have hrest : Bytes rest := fun y hy => hl y (by simp [hy])
    have h1 := b64dec_enc (a / 4) (by omega)
    have h2 := b64dec_enc (a % 4 * 16 + b / 16) (by omega)
    have h3 := b64dec_enc (b % 16 * 4 + c / 64) (by omega)
    have h4 := b64dec_enc (c % 64) (by omega)
    have hne3 := b64enc_ne_pad (b % 16 * 4 + c / 64) (by omega)
    have hne4 := b64enc_ne_pad (c % 64) (by omega)
    simp only [base64encode, base64decodeQuanta, h1, h2, h3, h4, if_neg hne3, if_neg hne4,
      ih hrest]
    norm_num
    refine ⟨by omega, by omega, by omega⟩

theorem base64encode_chars (l : List Nat) (hl : Bytes l) :
    ∀ ch ∈ base64encode l, ch ∈ b64chars ∨ ch = '=' := by
  induction l using base64encode.induct with
  | case1 => intro ch hch; cases hch
  | case2 a =>
    have ha : a < 256 := hl a (by simp)
    intro ch hch
    simp only [base64encode, List.mem_cons, List.mem_singleton] at hch
    rcases hch with h | h | h | h
    · exact Or.inl (h ▸ b64enc_mem _ (by omega))
    · exact Or.inl (h ▸ b64enc_mem _ (by omega))
    · exact Or.inr h
    · simp at h
      exact Or.inr h
  | case3 a b =>
    have ha : a < 256 := hl a (by simp)
    have hb : b < 256 := hl b (by simp)
    intro ch hch
    simp only [base64encode, List.mem_cons, List.mem_singleton] at hch
    rcases hch with h | h | h | h
    · exact Or.inl (h ▸ b64enc_mem _ (by omega))
    · exact Or.inl (h ▸ b64enc_mem _ (by omega))
    · exact Or.inl (h ▸ b64enc_mem _ (by omega))
    · simp at h
      exact Or.inr h
  | case4 a b c rest ih =>
    have ha : a < 256 := hl a (by simp)
    have hb : b < 256 := hl b (by simp)
    have hc : c < 256 := hl c (by simp)
    have hrest : Bytes rest := fun y hy => hl y (by simp [hy])
    intro ch hch
    simp only [base64encode, List.mem_cons] at hch
    rcases hch with h | h | h | h | h
    · exact Or.inl (h ▸ b64enc_mem _ (by omega))
    · exact Or.inl (h ▸ b64enc_mem _ (by omega))
    · exact Or.inl (h ▸ b64enc_mem _ (by omega))
    · exact Or.inl (h ▸ b64enc_mem _ (by omega))
    · exact ih hrest ch h

theorem base64encode_no_newline (l : List Nat) (hl : Bytes l) :
    (base64encode l).filter (fun c => !(c == '\r' || c == '\n')) = base64encode l := by
  rw [List.filter_eq_self]
  have halpha : ∀ c ∈ b64chars, (!(c == '\r' || c == '\n')) = true := by decide
  intro ch hch
  rcases base64encode_chars l hl ch hch with h | h
  · exact halpha ch h
  · subst h
    decide

theorem base64_roundtrip (l : List Nat) (hl : Bytes l) :
    base64decode (base64encode l) = some l := by
  rw [base64decode, base64encode_no_newline l hl]
  exact base64decodeQuanta_encode l hl

theorem chunksOfAux_mem (n : Nat) (hn : 0 < n) (f : Nat) :
    ∀ (l : List α) (c : List α), c ∈ chunksOfAux n f l →
      c ≠ [] ∧ ∀ x ∈ c, x ∈ l := by
  induction f with
  | zero =>
    intro l c hc
    cases l <;> simp [chunksOfAux] at hc
  | succ f ih =>
    intro l c hc
    cases l with
    | nil => simp [chunksOfAux] at hc
    | cons a t =>
      rcases List.mem_cons.mp hc with h | h
      · subst h
        constructor
        · cases n with
          | zero => omega
          | succ m => simp [List.take]
        · intro x hx
          exact List.take_subset n (a :: t) hx
      · have hr := ih _ c h
        exact ⟨hr.1, fun x hx => List.drop_subset n (a :: t) (hr.2 x hx)⟩

theorem chunksOf_mem (n : Nat) (hn : 0 < n) (l : List α) (c : List α)
    (hc : c ∈ chunksOf n l) : c ≠ [] ∧ ∀ x ∈ c, x ∈ l :=
  chunksOfAux_mem n hn l.length l c hc

theorem chunk_ne_endline (c : List Char) (hne : c ≠ [])
    (hmem : ∀ x ∈ c, x ∈ b64chars ∨ x = '=') (t : List Char) :
    c ≠ pemEnd ++ t ++ pemDashes := by
  intro he
  cases c with
  | nil => exact hne rfl
  | cons ch rest =>
    have hsh : pemEnd ++ t ++ pemDashes
        = '-' :: (("----END ".toList ++ t) ++ pemDashes) := rfl
    rw [hsh] at he
    have h1 : ch = '-' := (List.cons.inj he).1
    rcases hmem ch (by simp) with h | h
    · rw [h1] at h
      revert h
      decide
    · rw [h1] at h
      cases h

theorem pemBody_closes (endLine : List Char) :
    ∀ body : List (List Char), (∀ l ∈ body, l ≠ endLine) →
      pemBody endLine (body ++ [endLine]) = some body := by
  intro body
  induction body with
  | nil => intro h; simp [pemBody]
  | cons l t ih =>
    intro h
    have hl : l ≠ endLine := h l (by simp)
    have ht := ih (fun x hx => h x (by simp [hx]))
    show pemBody endLine (l :: (t ++ [endLine])) = some (l :: t)
    simp [pemBody, hl, ht]

theorem parseBeginLine_marker (t : List Char) :
    parseBeginLine (pemBegin ++ t ++ pemDashes) = some t := by
  have h11 : pemBegin.length = 11 := rfl
  have h5 : pemDashes.length = 5 := rfl
  have hlen : (pemBegin ++ t ++ pemDashes).length = 16 + t.length := by
    simp [List.length_append, h11, h5]
    omega
  have htake : (pemBegin ++ t ++ pemDashes).take 11 = pemBegin := by
    rw [List.append_assoc]
    exact List.take_left' h11
  have hdrop5 : (pemBegin ++ t ++ pemDashes).drop ((pemBegin ++ t ++ pemDashes).length - 5)
      = pemDashes := by
    rw [hlen]
    have : (pemBegin ++ t).length = 16 + t.length - 5 := by
      simp [List.length_append, h11]
      omega
    exact List.drop_left' this
  have hdrop11 : (pemBegin ++ t ++ pemDashes).drop 11 = t ++ pemDashes := by
    rw [List.append_assoc]
    exact List.drop_left' h11
  have hget : ((pemBegin ++ t ++ pemDashes).drop 11).take
      ((pemBegin ++ t ++ pemDashes).length - 16) = t := by
    rw [hdrop11, hlen]
    exact List.take_left' (by omega)
  unfold parseBeginLine
  rw [if_pos ⟨htake, hdrop5, by omega⟩, hget]

theorem pemDecode_pemEncode (b : PemBlock) (hb : Bytes b.bytes) :
    pemDecode (pemEncode b) = some b := by
  have hchunks : ∀ c ∈ chunksOf 64 (base64encode b.bytes),
      c ≠ pemEnd ++ b.type ++ pemDashes := by
    intro c hc
    have h := chunksOf_mem 64 (by norm_num) _ c hc
    exact chunk_ne_endline c h.1
      (fun x hx => base64encode_chars b.bytes hb x (h.2 x hx)) b.type
  have hbody := pemBody_closes (pemEnd ++ b.type ++ pemDashes)
    (chunksOf 64 (base64encode b.bytes)) hchunks
  have hflat : (chunksOf 64 (base64encode b.bytes)).flatten = base64encode b.bytes :=
    chunksOf_join 64 (by norm_num) _
  show pemDecode ((pemBegin ++ b.type ++ pemDashes)
    :: (chunksOf 64 (base64encode b.bytes) ++ [pemEnd ++ b.type ++ pemDashes]))
    = some b
  simp only [pemDecode, parseBeginLine_marker, hbody, hflat,
    base64_roundtrip b.bytes hb]

/-! The DER layer: properties of the minimal big-endian representation
and round-trips of the length and INTEGER encodings. -/

theorem base256Aux_zero (f : Nat) : base256Aux f 0 = [] := by
  cases f <;> simp [base256Aux]

theorem base256Aux_congr : ∀ f g n : Nat, n ≤ f → n ≤ g →
    base256Aux f n = base256Aux g n := by
  intro f
  induction f with
  | zero =>
    intro g n hf hg
    have : n = 0 := Nat.le_zero.mp hf
    subst this
    rw [base256Aux_zero, base256Aux_zero]
  | succ f ih =>
    intro g n hf hg
    by_cases h0 : n = 0
    · subst h0
      rw [base256Aux_zero, base256Aux_zero]
    · cases g with
      | zero => omega
      | succ g =>
        have hrec : n / 256 < n := Nat.div_lt_self (Nat.pos_of_ne_zero h0) (by norm_num)
        simp only [base256Aux, h0, if_false]
        rw [ih g (n / 256) (by omega) (by omega)]

theorem base256_rec (n : Nat) (h : 0 < n) :
    base256 n = base256 (n / 256) ++ [n % 256] := by
  cases n with
  | zero => omega
  | succ k =>
    show base256Aux (k + 1) (k + 1) = _
    have h0 : (k + 1 : Nat) ≠ 0 := by omega
    simp only [base256Aux, h0, if_false]
    have hrec : (k + 1) / 256 < k + 1 := Nat.div_lt_self (by omega) (by norm_num)
    rw [base256Aux_congr k ((k + 1) / 256) ((k + 1) / 256) (by omega) (le_refl _)]
    rfl

theorem os2ip_base256 (n : Nat) : os2ip (base256 n) = n := by
  induction n using Nat.strong_induction_on with
  | _ n ih =>
    by_cases h0 : n = 0
    · subst h0; rfl
    · rw [base256_rec n (Nat.pos_of_ne_zero h0), os2ip_snoc,
        ih (n / 256) (Nat.div_lt_self (Nat.pos_of_ne_zero h0) (by norm_num))]
      omega

theorem bytes_base256 (n : Nat) : Bytes (base256 n) := by
  induction n using Nat.strong_induction_on with
  | _ n ih =>
    by_cases h0 : n = 0
    · subst h0; intro x hx; cases hx
    · rw [base256_rec n (Nat.pos_of_ne_zero h0)]
      intro x hx
      rcases List.mem_append.mp hx with h | h
      · exact ih (n / 256) (Nat.div_lt_self (Nat.pos_of_ne_zero h0) (by norm_num)) x h
      · rw [List.mem_singleton.mp h]
        exact Nat.mod_lt _ (by norm_num)

theorem base256_ne_nil (n : Nat) (h : 0 < n) : base256 n ≠ [] := by
  rw [base256_rec n h]
  simp

theorem base256_headD (n : Nat) (h : 0 < n) : (base256 n).headD 0 ≠ 0 := by
  induction n using Nat.strong_induction_on with
  | _ n ih =>
    rw [base256_rec n h]
    by_cases hd : n / 256 = 0
    · rw [hd]
      show ((base256Aux 0 0 ++ [n % 256]).headD 0) ≠ 0
      have : n < 256 := by omega
      simp [base256Aux]
      omega
    · have hne := base256_ne_nil (n / 256) (Nat.pos_of_ne_zero hd)
      have hh := ih (n / 256) (Nat.div_lt_self h (by norm_num)) (Nat.pos_of_ne_zero hd)
      cases hb : base256 (n / 256) with
      | nil => exact absurd hb hne
      | cons y t =>
        rw [hb] at hh
        simpa using hh

theorem base256_length_le : ∀ k n : Nat, n < 256 ^ k → (base256 n).length ≤ k := by
  intro k
  induction k with
  | zero =>
    intro n hn
    have : n = 0 := by simpa using hn
    subst this
    simp [base256, base256Aux]
  | succ k ih =>
    intro n hn
    by_cases h0 : n = 0
    · subst h0; simp [base256, base256Aux]
    · rw [base256_rec n (Nat.pos_of_ne_zero h0)]
      have hdiv : n / 256 < 256 ^ k := by
        rw [Nat.div_lt_iff_lt_mul (by norm_num : (0:Nat) < 256)]
        calc n < 256 ^ (k + 1) := hn
          _ = 256 ^ k * 256 := by ring
      simp only [List.length_append, List.length_cons, List.length_nil]
      have := ih (n / 256) hdiv
      omega

theorem parseDerLen_round (m : Nat) (rest : List Nat) :
    parseDerLen (derLen m ++ rest) = some (m, rest) := by
  by_cases h : m < 128
  · simp [derLen, h, parseDerLen]
  · have hm : 0 < m := by omega
    have hne := base256_ne_nil m hm
    have hlen1 : 1 ≤ (base256 m).length := by
      cases hb : base256 m with
      | nil => exact absurd hb hne
      | cons y t => simp
    simp only [derLen, h, if_false]
    show parseDerLen ((128 + (base256 m).length) :: (base256 m ++ rest)) = _
    have hga : ¬ (128 + (base256 m).length < 128) := by omega
    have hk : 128 + (base256 m).length - 128 = (base256 m).length := by omega
    simp only [parseDerLen, hga, if_false, hk]
    have hknz : ¬ ((base256 m).length = 0) := by omega
    have hlen : ¬ ((base256 m ++ rest).length < (base256 m).length) := by
      simp [List.length_append]
    have hhead : ¬ ((base256 m ++ rest).headD 0 = 0) := by
      cases hb : base256 m with
      | nil => exact absurd hb hne
      | cons y t =>
        have := base256_headD m hm
        rw [hb] at this
        simpa using this
    have htake : (base256 m ++ rest).take (base256 m).length = base256 m :=
      List.take_left _ _
    have hdrop : (base256 m ++ rest).drop (base256 m).length = rest :=
      List.drop_left _ _
    have hval : os2ip ((base256 m ++ rest).take (base256 m).length) = m := by
      rw [htake, os2ip_base256]
    have hsmall : ¬ (os2ip ((base256 m ++ rest).take (base256 m).length) < 128) := by
      rw [hval]; omega
    simp only [hknz, if_false, hlen, hhead, hsmall, hval, hdrop]
    exact if_neg h

theorem derInt_eq (n : Nat) :
    derInt n = 2 :: (derLen (derIntContents n).length ++ derIntContents n) := by
  simp only [derInt, derIntContents]

theorem lt_pow127 (m : Nat) (h : m < 65536) : m < 256 ^ 127 := by
  calc m < 65536 := h
    _ = 256 ^ 2 := by norm_num
    _ ≤ 256 ^ 127 := Nat.pow_le_pow_right (by norm_num) (by norm_num)

theorem bytes_derLen (m : Nat) (h : m < 256 ^ 127) : Bytes (derLen m) := by
  unfold derLen
  split
  · rename_i hs
    intro x hx
    rw [List.mem_singleton.mp hx]
    omega
  · intro x hx
    rcases List.mem_cons.mp hx with hh | hh
    · have := base256_length_le 127 m h
      omega
    · exact bytes_base256 m x hh

theorem derLen_length_short (m : Nat) (h : m < 128) : (derLen m).length = 1 := by
  simp [derLen, h]

theorem bytes_derIntContents (n : Nat) : Bytes (derIntContents n) := by
  unfold derIntContents
  split
  · intro x hx
    rw [List.mem_singleton.mp hx]
    omega
  · split
    · intro x hx
      rcases List.mem_cons.mp hx with hh | hh
      · omega
      · exact bytes_base256 n x hh
    · exact bytes_base256 n

theorem derLen_length_le (m : Nat) (h : m < 256 ^ 127) : (derLen m).length ≤ 128 := by
  unfold derLen
  split
  · simp
  · have := base256_length_le 127 m h
    simp only [List.length_cons]
    omega

theorem derIntContents_length_le (n K : Nat) (h : n < 256 ^ K) :
    (derIntContents n).length ≤ K + 1 := by
  have hb := base256_length_le K n h
  unfold derIntContents
  split
  · simp
  · split
    · simp only [List.length_cons]
      omega
    · omega

theorem derIntContents_length_lt (n K : Nat) (h : n < 256 ^ K)
    (hK : K ≤ 256 ^ 126) : (derIntContents n).length < 256 ^ 127 := by
  have h127 : (256:Nat) ^ 127 = 256 ^ 126 * 256 := by rw [← pow_succ]
  have hone : 1 ≤ (256:Nat) ^ 126 := Nat.one_le_pow _ _ (by norm_num)
  have hc := derIntContents_length_le n K h
  rw [h127]
  omega

theorem bytes_derInt (n K : Nat) (h : n < 256 ^ K) (hK : K ≤ 256 ^ 126) :
    Bytes (derInt n) := by
  rw [derInt_eq]
  intro x hx
  rcases List.mem_cons.mp hx with hh | hh
  · omega
  · rcases List.mem_append.mp hh with h2 | h2
    · exact bytes_derLen _ (derIntContents_length_lt n K h hK) x h2
    · exact bytes_derIntContents n x h2

theorem derInt_length_le (n K : Nat) (h : n < 256 ^ K) (hK : K ≤ 256 ^ 126) :
    (derInt n).length ≤ K + 130 := by
  have hc := derIntContents_length_le n K h
  have hlen := derLen_length_le (derIntContents n).length
    (derIntContents_length_lt n K h hK)
  rw [derInt_eq]
  simp only [List.length_cons, List.length_append]
  omega

theorem bytes_derSeq (contents : List Nat) (hc : Bytes contents)
    (hl : contents.length < 256 ^ 127) : Bytes (derSeq contents) := by
  unfold derSeq
  intro x hx
  rcases List.mem_cons.mp hx with hh | hh
  · omega
  · rcases List.mem_append.mp hh with h2 | h2
    · exact bytes_derLen _ hl x h2
    · exact hc x h2

theorem pow127_split : (256:Nat) ^ 127 = 256 ^ 126 * 256 := by
  rw [← pow_succ]

theorem pow126_large : 1170 ≤ (256:Nat) ^ 126 :=
  le_trans (by norm_num : (1170:Nat) ≤ 256 ^ 2)
    (Nat.pow_le_pow_right (by norm_num) (by norm_num))

theorem lt_big_bound (m k : Nat) (hm : m < 256 ^ k) (hk : k ≤ 256 ^ 126) :
    m < 256 ^ 256 ^ 126 :=
  lt_of_lt_of_le hm (Nat.pow_le_pow_right (by norm_num) hk)

theorem bytes_marshalPKCS1PublicKey (pub : PublicKey) (hn : pub.n < 256 ^ 256 ^ 126)
    (he : pub.e < 256 ^ 256 ^ 126) : Bytes (marshalPKCS1PublicKey pub) := by
  unfold marshalPKCS1PublicKey
  apply bytes_derSeq
  · intro x hx
    rcases List.mem_append.mp hx with h1 | h1
    · exact bytes_derInt _ _ hn (le_refl _) x h1
    · exact bytes_derInt _ _ he (le_refl _) x h1
  · have l1 := derInt_length_le _ _ hn (le_refl (256 ^ 126))
    have l2 := derInt_length_le _ _ he (le_refl (256 ^ 126))
    clear hn he
    have hA := pow126_large
    simp only [List.length_append]
    rw [pow127_split]
    omega

theorem marshalPKCS1PublicKey_length_le (pub : PublicKey) (hn : pub.n < 256 ^ 256 ^ 126)
    (he : pub.e < 256 ^ 256 ^ 126) :
    (marshalPKCS1PublicKey pub).length ≤ 2 * 256 ^ 126 + 400 := by
  unfold marshalPKCS1PublicKey derSeq
  have l1 := derInt_length_le _ _ hn (le_refl (256 ^ 126))
  have l2 := derInt_length_le _ _ he (le_refl (256 ^ 126))
  clear hn he
  have hA := pow126_large
  have l3 := derLen_length_le (derInt pub.n ++ derInt pub.e).length (by
    simp only [List.length_append]
    rw [pow127_split]
    omega)
  simp only [List.length_cons, List.length_append]
  simp only [List.length_append] at l3
  omega

theorem bytes_rsaAlgoId : Bytes rsaAlgoId := by decide

theorem bytes_marshalPKIXPublicKey (pub : PublicKey) (hn : pub.n < 256 ^ 256 ^ 126)
    (he : pub.e < 256 ^ 256 ^ 126) : Bytes (marshalPKIXPublicKey pub) := by
  have hinner := bytes_marshalPKCS1PublicKey pub hn he
  have hilen := marshalPKCS1PublicKey_length_le pub hn he
  clear hn he
  have hA := pow126_large
  unfold marshalPKIXPublicKey
  apply bytes_derSeq
  · intro x hx
    rcases List.mem_append.mp hx with h1 | h1
    · exact bytes_rsaAlgoId x h1
    · rcases List.mem_cons.mp h1 with h2 | h2
      · omega
      · rcases List.mem_append.mp h2 with h3 | h3
        · exact bytes_derLen _ (by rw [pow127_split]; omega) x h3
        · rcases List.mem_cons.mp h3 with h4 | h4
          · omega
          · exact hinner x h4
  · have l3 := derLen_length_le ((marshalPKCS1PublicKey pub).length + 1)
      (by rw [pow127_split]; omega)
    have halg : rsaAlgoId.length = 15 := by decide
    simp only [List.length_append, List.length_cons, halg]
    rw [pow127_split]
    omega

theorem parsePKCS1PublicKey_pkix (pub : PublicKey) :
    parsePKCS1PublicKey (marshalPKIXPublicKey pub) = none := by
  have halg : ∀ X : List Nat, rsaAlgoId ++ X
      = 48 :: ([13, 6, 9, 42, 134, 72, 134, 247, 13, 1, 1, 1, 5, 0] ++ X) :=
    fun X => rfl
  set C := rsaAlgoId
    ++ (3 :: (derLen ((marshalPKCS1PublicKey pub).length + 1)
        ++ 0 :: marshalPKCS1PublicKey pub)) with hC
  show parsePKCS1PublicKey (48 :: (derLen C.length ++ C)) = none
  have hhdr : parseDerSeqHeader (48 :: (derLen C.length ++ C)) = some (C.length, C) := by
    simp only [parseDerSeqHeader]
    rw [if_neg (show ¬ ((48:Nat) ≠ 48) from fun hc => hc rfl), parseDerLen_round]
  have hCnone : parseDerInt C = none := by
    rw [hC, halg]
    rfl
  simp only [parsePKCS1PublicKey, hhdr, hCnone]
  rw [if_neg (show ¬ (C.length ≠ C.length) from fun hc => hc rfl)]

/-- C1 fails on the code at a concrete key: WritePublicKey serialises
the key as PKIX SubjectPublicKeyInfo, but ParsePublicKey parses the PEM
payload as a PKCS1 RSAPublicKey, so decoding what was encoded returns
an error (none), not the key. -/
theorem parsePublicKey_writePublicKey_fails_tiny :
    ParsePublicKey (WritePublicKey ⟨3233, 17⟩) = none := by decide

/-- C1 amended: for every valid RSA public key — any key whose
components stay below 256^(256^126), far beyond every representable
key including this module's 4096-bit ones — ParsePublicKey applied to
WritePublicKey's PEM serialisation fails with a decode error (the PKIX
DER payload is not a PKCS1 structure), so the public-key round-trip
never holds. -/
theorem parsePublicKey_writePublicKey_mismatch (pub : PublicKey)
    (hn : pub.n < 256 ^ 256 ^ 126) (he : pub.e < 256 ^ 256 ^ 126) :
    ParsePublicKey (WritePublicKey pub) = none := by
  unfold ParsePublicKey WritePublicKey
  rw [pemDecode_pemEncode ⟨"PUBLIC KEY".toList, marshalPKIXPublicKey pub⟩
    (bytes_marshalPKIXPublicKey pub hn he)]
  show (if "PUBLIC KEY".toList = "PUBLIC KEY".toList
    then parsePKCS1PublicKey (marshalPKIXPublicKey pub) else none) = none
  rw [if_pos rfl]
  exact parsePKCS1PublicKey_pkix pub

theorem parsePublicKey_writePublicKey_mismatch_witness :
    (3233 : Nat) < 256 ^ 256 ^ 126 ∧ (17 : Nat) < 256 ^ 256 ^ 126
    ∧ ParsePublicKey (WritePublicKey ⟨3233, 17⟩) = none :=
  ⟨lt_big_bound 3233 2 (by decide) (by norm_num),
   lt_big_bound 17 1 (by decide) (by norm_num),
   parsePublicKey_writePublicKey_mismatch ⟨3233, 17⟩
     (lt_big_bound 3233 2 (by decide) (by norm_num))
     (lt_big_bound 17 1 (by decide) (by norm_num))⟩

/-! Properties of the bit length, the mask generation function and the
byte-wise operations used by PSS. -/

theorem bitLenAux_zero (f : Nat) : bitLenAux f 0 = 0 := by
  cases f <;> simp [bitLenAux]

theorem bitLenAux_congr : ∀ f g n : Nat, n ≤ f → n ≤ g →
    bitLenAux f n = bitLenAux g n := by
  intro f
  induction f with
  | zero =>
    intro g n hf hg
    have : n = 0 := Nat.le_zero.mp hf
    subst this
    rw [bitLenAux_zero, bitLenAux_zero]
  | succ f ih =>
    intro g n hf hg
    by_cases h0 : n = 0
    · subst h0
      rw [bitLenAux_zero, bitLenAux_zero]
    · cases g with
      | zero => omega
      | succ g =>
        have hrec : n / 2 < n := Nat.div_lt_self (Nat.pos_of_ne_zero h0) (by norm_num)
        simp only [bitLenAux, h0, if_false]
        rw [ih g (n / 2) (by omega) (by omega)]

theorem bitLen_rec (n : Nat) (h : 0 < n) : bitLen n = bitLen (n / 2) + 1 := by
  cases n with
  | zero => omega
  | succ k =>
    show bitLenAux (k + 1) (k + 1) = _
    have h0 : (k + 1 : Nat) ≠ 0 := by omega
    simp only [bitLenAux, h0, if_false]
    have hrec : (k + 1) / 2 < k + 1 := Nat.div_lt_self (by omega) (by norm_num)
    rw [bitLenAux_congr k ((k + 1) / 2) ((k + 1) / 2) (by omega) (le_refl _)]
    rfl

theorem bitLen_spec (n : Nat) (h : 0 < n) :
    2 ^ (bitLen n - 1) ≤ n ∧ n < 2 ^ bitLen n ∧ 1 ≤ bitLen n := by
  induction n using Nat.strong_induction_on with
  | _ n ih =>
    rw [bitLen_rec n h]
    by_cases hd : n / 2 = 0
    · rw [hd]
      have h1 : n = 1 := by omega
      subst h1
      simp [bitLen, bitLenAux]
    · have hrec : n / 2 < n := Nat.div_lt_self h (by norm_num)
      obtain ⟨hlow, hhigh, hone⟩ := ih (n / 2) hrec (Nat.pos_of_ne_zero hd)
      obtain ⟨c, hc⟩ : ∃ c, bitLen (n / 2) = c + 1 := ⟨bitLen (n / 2) - 1, by omega⟩
      rw [hc] at hlow hhigh ⊢
      simp only [Nat.add_sub_cancel] at hlow ⊢
      have hp1 : (2:Nat) ^ (c + 1) = 2 * 2 ^ c := by
        rw [pow_succ]; ring
      have hp2 : (2:Nat) ^ (c + 1 + 1) = 2 * 2 ^ (c + 1) := by
        rw [pow_succ]; ring
      refine ⟨?_, ?_, by omega⟩
      · rw [hp1]
        omega
      · rw [hp2, hp1]
        omega

theorem os2ip_cons (x : Nat) (t : List Nat) :
    os2ip (x :: t) = x * 256 ^ t.length + os2ip t := by
  show List.foldl (fun a b => 256 * a + b) (256 * 0 + x) t = _
  rw [os2ip_foldl_init]
  simp

theorem mgf1Aux_length (seed : List Nat) :
    ∀ c ctr, (mgf1Aux seed c ctr).length = 32 * c := by
  intro c
  induction c with
  | zero => intro ctr; rfl
  | succ c ih =>
    intro ctr
    simp only [mgf1Aux, List.length_append, sha256_length, ih]
    ring

theorem mgf1_length (seed : List Nat) (len : Nat) : (mgf1 seed len).length = len := by
  simp only [mgf1, List.length_take, mgf1Aux_length]
  omega

theorem bytes_mgf1Aux (seed : List Nat) :
    ∀ c ctr, Bytes (mgf1Aux seed c ctr) := by
  intro c
  induction c with
  | zero => intro ctr x hx; cases hx
  | succ c ih =>
    intro ctr x hx
    rcases List.mem_append.mp hx with h | h
    · exact bytes_sha256 _ x h
    · exact ih (ctr + 1) x h

theorem bytes_mgf1 (seed : List Nat) (len : Nat) : Bytes (mgf1 seed len) :=
  fun x hx => bytes_mgf1Aux seed _ 0 x (List.take_subset _ _ hx)

theorem xorBytes_length (a b : List Nat) :
    (xorBytes a b).length = min a.length b.length := by
  simp [xorBytes]

theorem bytes_xorBytes (a b : List Nat) (ha : Bytes a) (hb : Bytes b) :
    Bytes (xorBytes a b) := by
  induction a generalizing b with
  | nil => intro x hx; cases hx
  | cons y t ih =>
    cases b with
    | nil => intro x hx; cases hx
    | cons z u =>
      intro x hx
      rcases List.mem_cons.mp hx with h | h
      · rw [h]
        exact Nat.xor_lt_two_pow (show y < 2 ^ 8 from ha y (by simp))
          (show z < 2 ^ 8 from hb z (by simp))
      · exact ih u (fun w hw => ha w (by simp [hw])) (fun w hw => hb w (by simp [hw])) x h

theorem xorBytes_cancel (a : List Nat) :
    ∀ b : List Nat, a.length ≤ b.length → xorBytes (xorBytes a b) b = a := by
  induction a with
  | nil => intro b h; cases b <;> rfl
  | cons y t ih =>
    intro b h
    cases b with
    | nil => simp at h
    | cons z u =>
      show (y ^^^ z ^^^ z) :: xorBytes (xorBytes t u) u = y :: t
      rw [Nat.xor_cancel_right, ih u (by simpa using h)]

theorem and_xor_unmask (x y m : Nat) :
    (((x ^^^ y) &&& m) ^^^ y) &&& m = x &&& m := by
  rw [Nat.and_xor_distrib_right, Nat.and_assoc, Nat.and_self,
    Nat.and_xor_distrib_right, Nat.xor_cancel_right]

theorem bitMask_facts (s : Nat) (hs : s ≤ 7) :
    (255 >>> s) &&& 255 = 255 >>> s
    ∧ 1 &&& (255 >>> s) = 1
    ∧ 255 >>> s < 2 ^ (8 - s) := by
  have hcase : s = 0 ∨ s = 1 ∨ s = 2 ∨ s = 3 ∨ s = 4 ∨ s = 5 ∨ s = 6 ∨ s = 7 := by
    omega
  rcases hcase with h | h | h | h | h | h | h | h <;> subst h <;> refine ⟨by decide, by decide, by decide⟩

theorem and_mask_vanish (x m : Nat) (hm : m &&& 255 = m) :
    (x &&& m) &&& (255 ^^^ m) = 0 := by
  have h1 : m &&& (255 ^^^ m) = 0 := by
    rw [Nat.and_xor_distrib_left, hm, Nat.and_self, Nat.xor_self]
  rw [Nat.and_assoc, h1, Nat.and_zero]

/-! The arithmetic heart of RSA: raising to e*d is the identity modulo
n = p*q when d inverts e modulo p-1 and q-1. -/

theorem pow_modEq_prime (p k m : Nat) (hp : p.Prime) (hk : k % (p - 1) = 1) :
    m ^ k ≡ m [MOD p] := by
  have hp2 : 2 ≤ p := hp.two_le
  have hpne2 : p ≠ 2 := by
    intro h
    subst h
    simp [Nat.mod_one] at hk
  have hp3 : 3 ≤ p := by omega
  have hk1 : 1 ≤ k := by
    by_contra hc
    push_neg at hc
    have : k = 0 := by omega
    subst this
    rw [Nat.zero_mod] at hk
    omega
  obtain ⟨a, ha⟩ : ∃ a, k = (p - 1) * a + 1 :=
    ⟨k / (p - 1), by
      have hdm := Nat.div_add_mod k (p - 1)
      rw [hk] at hdm
      omega⟩
  by_cases hdvd : p ∣ m
  · have h0 : m ≡ 0 [MOD p] := Nat.modEq_zero_iff_dvd.mpr hdvd
    calc m ^ k ≡ 0 ^ k [MOD p] := h0.pow k
      _ = 0 := by rw [zero_pow (by omega : k ≠ 0)]
      _ ≡ m [MOD p] := h0.symm
  · have hcop : Nat.Coprime m p :=
      ((Nat.Prime.coprime_iff_not_dvd hp).mpr hdvd).symm
    have hfer : m ^ (p - 1) ≡ 1 [MOD p] := by
      have := Nat.ModEq.pow_totient hcop
      rwa [Nat.totient_prime hp] at this
    calc m ^ k = (m ^ (p - 1)) ^ a * m := by
          rw [← pow_mul, ← pow_succ, ha]
      _ ≡ 1 ^ a * m [MOD p] := (hfer.pow a).mul_right m
      _ = m := by rw [one_pow, one_mul]

theorem rsa_correct (p q e d m : Nat) (hp : p.Prime) (hq : q.Prime)
    (hne : p ≠ q) (hep : e * d % (p - 1) = 1) (heq : e * d % (q - 1) = 1) :
    m ^ (e * d) ≡ m [MOD p * q] := by
  have h1 := pow_modEq_prime p (e * d) m hp hep
  have h2 := pow_modEq_prime q (e * d) m hq heq
  have hcop : Nat.Coprime p q := (Nat.coprime_primes hp hq).mpr hne
  exact (Nat.modEq_and_modEq_iff_modEq_mul hcop).mp ⟨h1, h2⟩

theorem rsa_powMod_roundtrip (k : PrivateKey) (hkey : GeneratedKey k)
    (x : Nat) (hx : x < k.pub.n) :
    powMod (powMod x k.d k.pub.n) k.pub.e k.pub.n = x := by
  obtain ⟨hp, hq, hne, hn, hep, heq, _⟩ := hkey
  rw [powMod_eq, powMod_eq]
  have hrw : (x ^ k.d % k.pub.n) ^ k.pub.e % k.pub.n
      = x ^ (k.d * k.pub.e) % k.pub.n := by
    rw [← Nat.pow_mod, ← pow_mul]
  rw [hrw, mul_comm k.d k.pub.e]
  have hmod : x ^ (k.pub.e * k.d) % k.pub.n = x % k.pub.n := by
    have := rsa_correct k.p k.q k.pub.e k.d x hp hq hne hep heq
    rw [← hn] at this
    exact this
  rw [hmod]
  exact Nat.mod_eq_of_lt hx

theorem getD_snoc_len (l : List α) (a d : α) : (l ++ [a]).getD l.length d = a := by
  simp [List.getD_eq_getElem?_getD, List.getElem?_append_right (le_refl l.length)]

theorem emsaPSSEncode_ok (mHash salt : List Nat) (emBits : Nat)
    (hdig : mHash.length = 32) (hslen : salt.length = (emBits + 7) / 8 - 34)
    (hbits : 265 ≤ emBits) :
    emsaPSSEncode mHash emBits salt
      = .ok (maskHead (255 >>> (8 * ((emBits + 7) / 8) - emBits))
          (xorBytes (1 :: salt)
            (mgf1 (sha256 (List.replicate 8 0 ++ mHash ++ salt))
              ((emBits + 7) / 8 - 32 - 1)))
          ++ sha256 (List.replicate 8 0 ++ mHash ++ salt) ++ [188]) := by
  have hemLen : 34 ≤ (emBits + 7) / 8 := by omega
  have hps : (emBits + 7) / 8 - salt.length - 32 - 2 = 0 := by omega
  simp only [emsaPSSEncode, hdig]
  rw [if_neg (show ¬ ((32:Nat) ≠ 32) from fun hc => hc rfl)]
  rw [if_neg (show ¬ ((emBits + 7) / 8 < 32 + salt.length + 2) by omega)]
  rw [hps]
  rfl

theorem emsaPSSVerify_encode (mHash salt : List Nat) (emBits : Nat)
    (hdig : mHash.length = 32) (hsalt : Bytes salt)
    (hslen : salt.length = (emBits + 7) / 8 - 34) (hbits : 265 ≤ emBits) :
    emsaPSSVerify mHash
      (maskHead (255 >>> (8 * ((emBits + 7) / 8) - emBits))
        (xorBytes (1 :: salt)
          (mgf1 (sha256 (List.replicate 8 0 ++ mHash ++ salt))
            ((emBits + 7) / 8 - 32 - 1)))
        ++ sha256 (List.replicate 8 0 ++ mHash ++ salt) ++ [188]) emBits = true := by
  set H := sha256 (List.replicate 8 0 ++ mHash ++ salt) with hH
  set bm := 255 >>> (8 * ((emBits + 7) / 8) - emBits) with hbm
  set mask := mgf1 H ((emBits + 7) / 8 - 32 - 1) with hmask
  have hemLen : 34 ≤ (emBits + 7) / 8 := by omega
  have hs7 : 8 * ((emBits + 7) / 8) - emBits ≤ 7 := by omega
  obtain ⟨hm255, hbm1, hbmlt⟩ := bitMask_facts _ hs7
  have hHlen : H.length = 32 := sha256_length _
  have hmlen : mask.length = salt.length + 1 := by
    rw [hmask, mgf1_length]
    omega
  obtain ⟨m0, mrest, hm⟩ : ∃ m0 mrest, mask = m0 :: mrest := by
    cases hmc : mask with
    | nil => rw [hmc] at hmlen; simp at hmlen
    | cons a t => exact ⟨a, t, rfl⟩
  have hmrest : mrest.length = salt.length := by
    rw [hm] at hmlen
    simpa using hmlen
  have hxlen : (xorBytes salt mrest).length = salt.length := by
    rw [xorBytes_length, hmrest]
    simp
  have hxdb : xorBytes (1 :: salt) mask = (1 ^^^ m0) :: xorBytes salt mrest := by
    rw [hm]
    rfl
  have hmdb : maskHead bm (xorBytes (1 :: salt) mask)
      = ((1 ^^^ m0) &&& bm) :: xorBytes salt mrest := by
    rw [hxdb]
    rfl
  rw [hmdb]
  have hlenem : ((((1 ^^^ m0) &&& bm) :: xorBytes salt mrest) ++ H ++ [188]).length
      = (emBits + 7) / 8 := by
    simp only [List.length_append, List.length_cons, List.length_nil, hxlen, hHlen]
    omega
  have htake : List.take ((emBits + 7) / 8 - 32 - 1)
      ((((1 ^^^ m0) &&& bm) :: xorBytes salt mrest) ++ H ++ [188])
      = ((1 ^^^ m0) &&& bm) :: xorBytes salt mrest := by
    rw [List.append_assoc]
    apply List.take_left'
    simp only [List.length_cons, hxlen]
    omega
  have hdrop : List.drop ((emBits + 7) / 8 - 32 - 1)
      ((((1 ^^^ m0) &&& bm) :: xorBytes salt mrest) ++ H ++ [188]) = H ++ [188] := by
    rw [List.append_assoc]
    apply List.drop_left'
    simp only [List.length_cons, hxlen]
    omega
  have hdropTake : List.take 32 (List.drop ((emBits + 7) / 8 - 32 - 1)
      ((((1 ^^^ m0) &&& bm) :: xorBytes salt mrest) ++ H ++ [188])) = H := by
    rw [hdrop]
    exact List.take_left' hHlen
  have hdb : maskHead bm (xorBytes (((1 ^^^ m0) &&& bm) :: xorBytes salt mrest) mask)
      = 1 :: salt := by
    rw [hm]
    show ((((1 ^^^ m0) &&& bm) ^^^ m0) &&& bm) :: xorBytes (xorBytes salt mrest) mrest
      = 1 :: salt
    rw [and_xor_unmask, hbm1, xorBytes_cancel salt mrest (by omega)]
  have hgetlast : ((((1 ^^^ m0) &&& bm) :: xorBytes salt mrest) ++ H ++ [188]).getD
      ((emBits + 7) / 8 - 1) 0 = 188 := by
    have hidx : (emBits + 7) / 8 - 1
        = ((((1 ^^^ m0) &&& bm) :: xorBytes salt mrest) ++ H).length := by
      simp only [List.length_append, List.length_cons, hxlen, hHlen]
      omega
    rw [hidx, getD_snoc_len]
  have hheadem : ((((1 ^^^ m0) &&& bm) :: xorBytes salt mrest) ++ H ++ [188]).headD 0
      = (1 ^^^ m0) &&& bm := rfl
  simp only [emsaPSSVerify]
  rw [← hbm]
  rw [if_neg (show ¬ (mHash.length ≠ 32) from fun hc => hc hdig)]
  rw [if_neg (show ¬ (_ ≠ _) from fun hc => hc hlenem)]
  rw [if_neg (show ¬ ((emBits + 7) / 8 < 32 + 2) by omega)]
  rw [if_neg (show ¬ (_ ≠ _) from fun hc => hc hgetlast)]
  rw [hheadem]
  rw [if_neg (show ¬ (((1 ^^^ m0) &&& bm) &&& (255 ^^^ bm) ≠ 0) from
    fun hc => hc (and_mask_vanish _ bm hm255))]
  rw [htake, hdropTake, ← hmask, hdb]
  have hfind : List.findIdx? (fun x => x == 1) (1 :: salt) = some 0 := by
    simp [List.findIdx?_cons]
  rw [hfind]
  have hlendb : (1 :: salt).length = salt.length + 1 := by simp
  rw [hlendb]
  show (if List.take ((emBits + 7) / 8 - 32 - (salt.length + 1 - 0 - 1) - 2) (1 :: salt)
        ≠ List.replicate ((emBits + 7) / 8 - 32 - (salt.length + 1 - 0 - 1) - 2) 0
      then false
      else if (1 :: salt).getD ((emBits + 7) / 8 - 32 - (salt.length + 1 - 0 - 1) - 2) 0 ≠ 1
      then false
      else sha256 (List.replicate 8 0 ++ mHash
        ++ List.drop (salt.length + 1 - (salt.length + 1 - 0 - 1)) (1 :: salt)) == H) = true
  have hsl1 : salt.length + 1 - 0 - 1 = salt.length := by omega
  rw [hsl1]
  have hps0 : (emBits + 7) / 8 - 32 - salt.length - 2 = 0 := by omega
  rw [hps0]
  rw [if_neg (show ¬ (List.take 0 (1 :: salt) ≠ List.replicate 0 0) from
    fun hc => hc rfl)]
  rw [if_neg (show ¬ ((1 :: salt).getD 0 0 ≠ 1) from fun hc => hc rfl)]
  have hdrop1 : salt.length + 1 - salt.length = 1 := by omega
  rw [hdrop1]
  show (sha256 (List.replicate 8 0 ++ mHash ++ salt) == H) = true
  rw [← hH]
  simp

theorem emsaPSS_em_props (mHash salt : List Nat) (emBits : Nat)
    (hdig : mHash.length = 32) (hsalt : Bytes salt)
    (hslen : salt.length = (emBits + 7) / 8 - 34) (hbits : 265 ≤ emBits) :
    (maskHead (255 >>> (8 * ((emBits + 7) / 8) - emBits))
        (xorBytes (1 :: salt)
          (mgf1 (sha256 (List.replicate 8 0 ++ mHash ++ salt))
            ((emBits + 7) / 8 - 32 - 1)))
        ++ sha256 (List.replicate 8 0 ++ mHash ++ salt) ++ [188]).length
      = (emBits + 7) / 8
    ∧ Bytes (maskHead (255 >>> (8 * ((emBits + 7) / 8) - emBits))
        (xorBytes (1 :: salt)
          (mgf1 (sha256 (List.replicate 8 0 ++ mHash ++ salt))
            ((emBits + 7) / 8 - 32 - 1)))
        ++ sha256 (List.replicate 8 0 ++ mHash ++ salt) ++ [188])
    ∧ os2ip (maskHead (255 >>> (8 * ((emBits + 7) / 8) - emBits))
        (xorBytes (1 :: salt)
          (mgf1 (sha256 (List.replicate 8 0 ++ mHash ++ salt))
            ((emBits + 7) / 8 - 32 - 1)))
        ++ sha256 (List.replicate 8 0 ++ mHash ++ salt) ++ [188]) < 2 ^ emBits := by
  set H := sha256 (List.replicate 8 0 ++ mHash ++ salt) with hH
  set bm := 255 >>> (8 * ((emBits + 7) / 8) - emBits) with hbm
  set mask := mgf1 H ((emBits + 7) / 8 - 32 - 1) with hmask
  have hemLen : 34 ≤ (emBits + 7) / 8 := by omega
  have hs7 : 8 * ((emBits + 7) / 8) - emBits ≤ 7 := by omega
  obtain ⟨hm255, hbm1, hbmlt⟩ := bitMask_facts _ hs7
  have hHlen : H.length = 32 := sha256_length _
  have hHbytes : Bytes H := bytes_sha256 _
  have hmaskBytes : Bytes mask := bytes_mgf1 _ _
  have hmlen : mask.length = salt.length + 1 := by
    rw [hmask, mgf1_length]
    omega
  obtain ⟨m0, mrest, hm⟩ : ∃ m0 mrest, mask = m0 :: mrest := by
    cases hmc : mask with
    | nil => rw [hmc] at hmlen; simp at hmlen
    | cons a t => exact ⟨a, t, rfl⟩
  have hmrest : mrest.length = salt.length := by
    rw [hm] at hmlen
    simpa using hmlen
  have hmrestBytes : Bytes mrest := fun x hx => hmaskBytes x (by rw [hm]; simp [hx])
  have hm0B : m0 < 256 := hmaskBytes m0 (by rw [hm]; simp)
  have hxlen : (xorBytes salt mrest).length = salt.length := by
    rw [xorBytes_length, hmrest]
    simp
  have hxbytes : Bytes (xorBytes salt mrest) := bytes_xorBytes _ _ hsalt hmrestBytes
  have hmdb : maskHead bm (xorBytes (1 :: salt) mask)
      = ((1 ^^^ m0) &&& bm) :: xorBytes salt mrest := by
    rw [hm]
    rfl
  rw [hmdb]
  have hclt : (1 ^^^ m0) &&& bm < 2 ^ (8 - (8 * ((emBits + 7) / 8) - emBits)) :=
    lt_of_le_of_lt Nat.and_le_right hbmlt
  have hpow8 : (2:Nat) ^ (8 - (8 * ((emBits + 7) / 8) - emBits)) ≤ 2 ^ 8 :=
    Nat.pow_le_pow_right (by norm_num) (by omega)
  have hcB : (1 ^^^ m0) &&& bm < 256 := lt_of_lt_of_le hclt hpow8
  have htail : Bytes ((xorBytes salt mrest ++ H) ++ [188]) := by
    intro x hx
    rcases List.mem_append.mp hx with h1 | h1
    · rcases List.mem_append.mp h1 with h2 | h2
      · exact hxbytes x h2
      · exact hHbytes x h2
    · rw [List.mem_singleton.mp h1]
      norm_num
  have htailLen : ((xorBytes salt mrest ++ H) ++ [188]).length = (emBits + 7) / 8 - 1 := by
    simp only [List.length_append, List.length_cons, List.length_nil, hxlen, hHlen]
    omega
  have hcons : (((1 ^^^ m0) &&& bm) :: xorBytes salt mrest) ++ H ++ [188]
      = ((1 ^^^ m0) &&& bm) :: ((xorBytes salt mrest ++ H) ++ [188]) := by
    simp
  refine ⟨?_, ?_, ?_⟩
  · rw [hcons]
    simp only [List.length_cons, htailLen]
    omega
  · rw [hcons]
    intro x hx
    rcases List.mem_cons.mp hx with h1 | h1
    · rw [h1]; exact hcB
    · exact htail x h1
  · rw [hcons, os2ip_cons, htailLen]
    have ht := os2ip_lt _ htail
    rw [htailLen] at ht
    have hexp : (256:Nat) ^ ((emBits + 7) / 8 - 1)
        = 2 ^ (8 * ((emBits + 7) / 8 - 1)) := by
      rw [show (256:Nat) = 2 ^ 8 from rfl, ← pow_mul]
    have hsplit : (2:Nat) ^ emBits
        = 2 ^ (8 - (8 * ((emBits + 7) / 8) - emBits)) * 2 ^ (8 * ((emBits + 7) / 8 - 1)) := by
      rw [← pow_add]
      congr 1
      omega
    calc ((1 ^^^ m0) &&& bm) * 256 ^ ((emBits + 7) / 8 - 1)
          + os2ip ((xorBytes salt mrest ++ H) ++ [188])
        < ((1 ^^^ m0) &&& bm) * 256 ^ ((emBits + 7) / 8 - 1) + 256 ^ ((emBits + 7) / 8 - 1) := by
          omega
      _ = (((1 ^^^ m0) &&& bm) + 1) * 256 ^ ((emBits + 7) / 8 - 1) := by ring
      _ ≤ 2 ^ (8 - (8 * ((emBits + 7) / 8) - emBits)) * 256 ^ ((emBits + 7) / 8 - 1) := by
          exact Nat.mul_le_mul_right _ (by omega)
      _ = 2 ^ emBits := by rw [hexp, ← hsplit]

theorem signPSS_verifyPSS (k : PrivateKey) (hkey : GeneratedKey k)
    (rnd : Nat → List Nat) (hrnd : RandOk rnd) (digest : List Nat)
    (hdig : digest.length = 32) :
    ∃ sig, signPSS k digest rnd = .ok sig ∧ verifyPSS k.pub digest sig = true := by
  obtain ⟨hp, hq, hne, hn, hep, heq, hbits⟩ := hkey
  have hn4 : 4 ≤ k.pub.n := by
    rw [hn]
    have h1 := hp.two_le
    have h2 := hq.two_le
    nlinarith
  have hnpos : 0 < k.pub.n := by omega
  obtain ⟨hlow, hhigh, hone⟩ := bitLen_spec k.pub.n hnpos
  set B := bitLen k.pub.n with hB
  have hembits : 265 ≤ B - 1 := by omega
  set salt := rnd ((B - 1 + 7) / 8 - 2 - 32) with hsaltdef
  have hsl : salt.length = (B - 1 + 7) / 8 - 34 := by
    rw [hsaltdef, (hrnd _).2]
    omega
  have hsaltB : Bytes salt := by
    rw [hsaltdef]
    exact (hrnd _).1
  have henc := emsaPSSEncode_ok digest salt (B - 1) hdig hsl hembits
  obtain ⟨hEMlen, hEMbytes, hEMlt⟩ :=
    emsaPSS_em_props digest salt (B - 1) hdig hsaltB hsl hembits
  set EM := maskHead (255 >>> (8 * ((B - 1 + 7) / 8) - (B - 1)))
      (xorBytes (1 :: salt)
        (mgf1 (sha256 (List.replicate 8 0 ++ digest ++ salt))
          ((B - 1 + 7) / 8 - 32 - 1)))
      ++ sha256 (List.replicate 8 0 ++ digest ++ salt) ++ [188] with hEM
  have hm_lt_n : os2ip EM < k.pub.n := lt_of_lt_of_le hEMlt hlow
  set c := powMod (os2ip EM) k.d k.pub.n with hc
  have hcval : c = os2ip EM ^ k.d % k.pub.n := by rw [hc, powMod_eq]
  have hclt : c < k.pub.n := by
    rw [hcval]
    exact Nat.mod_lt _ hnpos
  have hsanity : powMod c k.pub.e k.pub.n = os2ip EM := by
    rw [hc]
    exact rsa_powMod_roundtrip k ⟨hp, hq, hne, hn, hep, heq, hbits⟩ _ hm_lt_n
  have hKpow : (2:Nat) ^ B ≤ 256 ^ ((B + 7) / 8) := by
    have h8 : (256:Nat) ^ ((B + 7) / 8) = 2 ^ (8 * ((B + 7) / 8)) := by
      rw [show (256:Nat) = 2 ^ 8 from rfl, ← pow_mul]
    rw [h8]
    exact Nat.pow_le_pow_right (by norm_num) (by omega)
  have hpub : pubSize k.pub = (B + 7) / 8 := by
    rw [pubSize, ← hB]
  have hcK : c < 256 ^ pubSize k.pub := by
    rw [hpub]
    calc c < k.pub.n := hclt
      _ < 2 ^ B := hhigh
      _ ≤ 256 ^ ((B + 7) / 8) := hKpow
  have hossig : os2ip (i2osp (pubSize k.pub) c) = c := by
    rw [os2ip_i2osp]
    exact Nat.mod_eq_of_lt hcK
  refine ⟨i2osp (pubSize k.pub) c, ?_, ?_⟩
  · simp only [signPSS]
    rw [← hB, ← hsaltdef]
    rw [if_neg (show ¬ ((B - 1 + 7) / 8 < 2 + 32) by omega)]
    rw [henc]
    show (if powMod (powMod (os2ip EM) k.d k.pub.n) k.pub.e k.pub.n ≠ os2ip EM
      then Except.error Err.signing
      else .ok (i2osp (pubSize k.pub) (powMod (os2ip EM) k.d k.pub.n)))
      = .ok (i2osp (pubSize k.pub) c)
    rw [← hc]
    rw [if_neg (show ¬ (powMod c k.pub.e k.pub.n ≠ os2ip EM) from fun hcon => hcon hsanity)]
  · simp only [verifyPSS]
    rw [← hB]
    rw [if_neg (show ¬ ((i2osp (pubSize k.pub) c).length ≠ pubSize k.pub) from
      fun hcon => hcon (i2osp_length _ _))]
    rw [hossig]
    rw [if_neg (show ¬ (k.pub.n < c) by omega)]
    rw [hsanity]
    rw [if_neg (show ¬ (256 ^ ((B - 1 + 7) / 8) ≤ os2ip EM) by
      have h8 : (256:Nat) ^ ((B - 1 + 7) / 8) = 2 ^ (8 * ((B - 1 + 7) / 8)) := by
        rw [show (256:Nat) = 2 ^ 8 from rfl, ← pow_mul]
      have hle : (2:Nat) ^ (B - 1) ≤ 2 ^ (8 * ((B - 1 + 7) / 8)) :=
        Nat.pow_le_pow_right (by norm_num) (by omega)
      rw [h8]
      push_neg
      omega)]
    have hi2 : i2osp ((B - 1 + 7) / 8) (os2ip EM) = EM := by
      have hthis := i2osp_os2ip EM hEMbytes
      rw [hEMlen] at hthis
      exact hthis
    rw [hi2]
    exact emsaPSSVerify_encode digest salt (B - 1) hdig hsaltB hsl hembits

theorem zmodPow_eq (x k n : Nat) : ((x : Nat) : ZMod n) ^ k = ((powMod x k n : Nat) : ZMod n) := by
  rw [powMod_eq, ZMod.natCast_mod, Nat.cast_pow]

theorem pow_eq_one_via_powMod (x k n : Nat) (h : powMod x k n = 1) :
    ((x : Nat) : ZMod n) ^ k = 1 := by
  rw [zmodPow_eq, h, Nat.cast_one]

theorem pow_ne_one_via_powMod (x k n : Nat) (hn : 1 < n) (h : powMod x k n ≠ 1) :
    ((x : Nat) : ZMod n) ^ k ≠ 1 := by
  haveI : Fact (1 < n) := ⟨hn⟩
  intro hc
  rw [zmodPow_eq] at hc
  have hlt : powMod x k n < n := by
    rw [powMod_eq]
    exact Nat.mod_lt _ (by omega)
  have hv := congrArg ZMod.val hc
  rw [ZMod.val_cast_of_lt hlt, ZMod.val_one] at hv
  exact h hv

theorem lucas_two_factor (p c a g : Nat) (hc : c.Prime) (hform : p - 1 = c * 2 ^ a)
    (hp1 : 1 < p)
    (h1 : powMod g (p - 1) p = 1)
    (h2 : powMod g ((p - 1) / 2) p ≠ 1)
    (h3 : powMod g ((p - 1) / c) p ≠ 1) : p.Prime := by
  apply lucas_primality p ((g : Nat) : ZMod p)
  · exact pow_eq_one_via_powMod g (p - 1) p h1
  · intro q hq hdvd
    rw [hform] at hdvd
    have hqc : q = c ∨ q = 2 := by
      rcases (Nat.Prime.dvd_mul hq).mp hdvd with h | h
      · exact Or.inl ((Nat.prime_dvd_prime_iff_eq hq hc).mp h)
      · exact Or.inr ((Nat.prime_dvd_prime_iff_eq hq Nat.prime_two).mp (hq.dvd_of_dvd_pow h))
    rcases hqc with h | h
    · subst h
      exact pow_ne_one_via_powMod g ((p - 1) / q) p hp1 h3
    · subst h
      exact pow_ne_one_via_powMod g ((p - 1) / 2) p hp1 h2

set_option maxRecDepth 100000 in
theorem wKeyP_prime : wKeyP.Prime := by
  apply lucas_two_factor wKeyP 53 133 3
  · norm_num
  · decide
  · decide
  · decide
  · decide
  · decide

set_option maxRecDepth 100000 in
theorem wKeyQ_prime : wKeyQ.Prime := by
  apply lucas_two_factor wKeyQ 67 134 3
  · norm_num
  · decide
  · decide
  · decide
  · decide
  · decide

set_option maxRecDepth 100000 in
theorem wKey_generated : GeneratedKey wKey := by
  refine ⟨wKeyP_prime, wKeyQ_prime, by decide, by decide, by decide, by decide, by decide⟩

theorem wRnd_ok : RandOk wRnd := by
  intro k
  constructor
  · intro x hx
    simp only [wRnd, List.mem_map, List.mem_range] at hx
    obtain ⟨i, hi, hix⟩ := hx
    omega
  · simp [wRnd]

/-- C3: for every key pair returned together by CreateRSAKeyPair (a
generated two-prime RSA key and its public component) and every message
M, signing the SHA-256 digest of M with the private key and verifying
the resulting signature against M with the public key succeeds. -/
theorem sign_then_verify_ok (gen : Except Err PrivateKey) (priv : PrivateKey)
    (pub : PublicKey) (rnd : Nat → List Nat) (M : List Nat)
    (hgen : CreateRSAKeyPair gen = .ok (priv, pub))
    (hkey : GeneratedKey priv) (hrnd : RandOk rnd) :
    ∃ sig, SignByteArray (some priv) (Sha256bytes2bytes M) rnd = .ok (some sig)
      ∧ VerifyByteArray (some pub) (some sig) M = .ok () := by
  have hpub : pub = priv.pub := by
    cases gen with
    | error e => cases hgen
    | ok kk =>
      have h2 : (kk, kk.pub) = (priv, pub) := Except.ok.inj hgen
      have hp1 : kk = priv := congrArg Prod.fst h2
      have hp2 : kk.pub = pub := congrArg Prod.snd h2
      rw [← hp1, ← hp2]
  obtain ⟨sig, hsig, hver⟩ :=
    signPSS_verifyPSS priv hkey rnd hrnd (Sha256bytes2bytes M) (sha256_length M)
  refine ⟨sig, ?_, ?_⟩
  · simp only [SignByteArray, hsig]
  · rw [hpub]
    simp only [VerifyByteArray, hver, if_true]

theorem sign_then_verify_ok_witness :
    CreateRSAKeyPair (.ok wKey) = .ok (wKey, wKey.pub)
    ∧ GeneratedKey wKey ∧ RandOk wRnd
    ∧ ∃ sig, SignByteArray (some wKey) (Sha256bytes2bytes [104, 105]) wRnd = .ok (some sig)
        ∧ VerifyByteArray (some wKey.pub) (some sig) [104, 105] = .ok () :=
  ⟨rfl, wKey_generated, wRnd_ok,
   sign_then_verify_ok (.ok wKey) wKey wKey.pub wRnd [104, 105] rfl wKey_generated wRnd_ok⟩

end GoLibs
